import Mathlib

/-!
Verification development for the WeChat AI assistant service.

The development shallowly embeds the Python source of the repository:

* `src/src/wechat/crypto.py` and `src/src/wechat.py` — the signature codec
  (`generate_signature` / `verify_signature`) and the AES-CBC message envelope
  (`encrypt` / `decrypt`).  The AES block permutation itself and the SHA-1
  digest live in external libraries (`cryptography`, `hashlib`); the envelope
  is therefore parametrised by an abstract block cipher, and SHA-1 is given a
  concrete executable model for the concrete test vectors.
* `src/src/server.py` / `src/src/wechat.py` — the byte-budget reply chunker
  `split_message_by_bytes`.
* `src/src/server/app.py` — `parse_command` and the POST callback handler.
* `src/src/ai/manager.py`, `src/src/ai/iflow.py`, `src/src/ai/qwen.py` — the
  session manager, the workspace router and the subprocess execution engine,
  modelled as explicit state transformers over a finite filesystem map.

Bytes are modelled as `Nat` (with explicit `< 256` side conditions where they
matter), byte strings as `List Nat`, and Python text as Lean `String`.
Fallible Python operations (raising exceptions) return `Except PyErr`.
-/

namespace WeChatAI
/-- Python exception kinds that the embedded code can raise.  Constructors are
named after the concrete Python exception classes the source raises:
`binascii.Error` (base64), `ValueError` (AES block length), `IndexError`
(indexing an empty buffer), `struct.error` (short `unpack` buffer) and
`UnicodeDecodeError` (strict UTF-8 decode). -/
inductive PyErr where
  | binasciiError
  | valueError
  | indexError
  | structError
  | unicodeError
  | typeError
  | tokenError
  | bodyDecodeError
  deriving DecidableEq, Repr

instance {ε α : Type} [DecidableEq ε] [DecidableEq α] : DecidableEq (Except ε α) := fun a b =>
  match a, b with
  | .ok x, .ok y => if h : x = y then .isTrue (by rw [h]) else .isFalse (by simp [h])
  | .error x, .error y => if h : x = y then .isTrue (by rw [h]) else .isFalse (by simp [h])
  | .ok _, .error _ => .isFalse (by simp)
  | .error _, .ok _ => .isFalse (by simp)

/-- All elements of a byte string are actual bytes. -/
def Bytes8 (l : List Nat) : Prop := ∀ x ∈ l, x < 256

/-! ## UTF-8 codec

Models CPython's strict `str.encode('utf-8')` and `bytes.decode('utf-8')`.
Encoding follows RFC 3629; decoding rejects overlong forms, surrogate code
points, values above U+10FFFF, malformed lead/continuation bytes and
truncated sequences — exactly the inputs on which CPython raises
`UnicodeDecodeError`. -/

/-- UTF-8 encoding of one Unicode scalar value. -/
def utf8EncodeScalar (c : Nat) : List Nat :=
  if c < 128 then [c]
  else if c < 2048 then [192 + c / 64, 128 + c % 64]
  else if c < 65536 then [224 + c / 4096, 128 + c / 64 % 64, 128 + c % 64]
  else [240 + c / 262144, 128 + c / 4096 % 64, 128 + c / 64 % 64, 128 + c % 64]

/-- Strict UTF-8 decoding of one scalar value from the head of a byte string. -/
def utf8DecodeScalar : List Nat → Option (Nat × List Nat)
  | [] => none
  | b0 :: r =>
    if b0 < 128 then some (b0, r)
    else if b0 < 194 then none
    else if b0 < 224 then
      match r with
      | b1 :: r1 =>
        if 128 ≤ b1 ∧ b1 < 192 then some ((b0 - 192) * 64 + (b1 - 128), r1) else none
      | [] => none
    else if b0 < 240 then
      match r with
      | b1 :: b2 :: r2 =>
        if 128 ≤ b1 ∧ b1 < 192 ∧ 128 ≤ b2 ∧ b2 < 192 then
          let c := (b0 - 224) * 4096 + (b1 - 128) * 64 + (b2 - 128)
          if c < 2048 ∨ (55296 ≤ c ∧ c < 57344) then none else some (c, r2)
        else none
      | _ => none
    else if b0 < 245 then
      match r with
      | b1 :: b2 :: b3 :: r3 =>
        if 128 ≤ b1 ∧ b1 < 192 ∧ 128 ≤ b2 ∧ b2 < 192 ∧ 128 ≤ b3 ∧ b3 < 192 then
          let c := (b0 - 240) * 262144 + (b1 - 128) * 4096 + (b2 - 128) * 64 + (b3 - 128)
          if c < 65536 ∨ 1114112 ≤ c then none else some (c, r3)
        else none
      | _ => none
    else none

/-- A Unicode scalar value: below the surrogate range or between it and
U+110000.  Mirrors `Nat.isValidChar`. -/
def ValidScalar (c : Nat) : Prop := c < 55296 ∨ (57344 ≤ c ∧ c < 1114112)

/-- Byte-level UTF-8 encoding of a character list (Python `str.encode()`). -/
def utf8EncodeChars : List Char → List Nat
  | [] => []
  | c :: cs => utf8EncodeScalar c.toNat ++ utf8EncodeChars cs

/-- Byte-level UTF-8 encoding of a string. -/
def utf8EncodeString (s : String) : List Nat := utf8EncodeChars s.data

/-- Fuelled strict UTF-8 decoding of a whole byte string (Python
`bytes.decode('utf-8')`); each step consumes at least one byte, so fuel equal
to the length of the input is always sufficient. -/
def utf8DecodeChars : Nat → List Nat → Option (List Char)
  | _, [] => some []
  | 0, _ :: _ => none
  | fuel + 1, b :: bs =>
    match utf8DecodeScalar (b :: bs) with
    | some (v, r) => (utf8DecodeChars fuel r).map (fun cs => Char.ofNat v :: cs)
    | none => none

/-- Strict UTF-8 decoding of a byte string to text; `none` models a
`UnicodeDecodeError`. -/
def utf8DecodeString (bs : List Nat) : Option String :=
  (utf8DecodeChars bs.length bs).map String.mk

/-! ## List chunking

Python-style grouping of a sequence into consecutive slices of a fixed size
(the last slice may be shorter), as produced by
`[xs[i:i+n] for i in range(0, len(xs), n)]` and used by AES block handling,
base64 groups and the reply chunkers. -/

/-- Fuelled worker for `chunkList`; fuel equal to the length of the list is
always sufficient when `0 < n`. -/
def chunkListFuel (n : Nat) : Nat → List α → List (List α)
  | _, [] => []
  | 0, x :: xs => [x :: xs]
  | fuel + 1, x :: xs =>
    if n = 0 then [x :: xs]
    else (x :: xs).take n :: chunkListFuel n fuel ((x :: xs).drop n)

/-- Split a list into consecutive chunks of size `n` (last chunk possibly
shorter).  The callers in this development always use `0 < n`. -/
def chunkList (n : Nat) (l : List α) : List (List α) := chunkListFuel n l.length l

/-! ## CBC mode over an abstract 16-byte block permutation

The Python source calls the external `cryptography` library's AES-CBC with a
fixed IV.  The library is modelled here: CBC chaining is spelled out exactly
(xor with the previous ciphertext block, IV first), while the AES block
permutation itself is a parameter. -/

/-- Byte-wise xor of two equal-length byte strings. -/
def xorBytes (a b : List Nat) : List Nat := List.zipWith (fun x y => x ^^^ y) a b

/-- CBC encryption of a block sequence: each plaintext block is xored with the
previous ciphertext block (the IV for the first) and passed through the block
permutation. -/
def cbcEncBlocks (E : List Nat → List Nat) : List Nat → List (List Nat) → List (List Nat)
  | _, [] => []
  | prev, b :: bs =>
    let c := E (xorBytes prev b)
    c :: cbcEncBlocks E c bs

/-- CBC decryption of a block sequence. -/
def cbcDecBlocks (D : List Nat → List Nat) : List Nat → List (List Nat) → List (List Nat)
  | _, [] => []
  | prev, c :: cs => xorBytes prev (D c) :: cbcDecBlocks D c cs

/-- AES-CBC encryption of a flat byte string, as performed by
`Cipher(algorithms.AES(key), modes.CBC(iv)).encryptor()` with
`iv = key[:16]`. -/
def aes_cbc_encrypt (E : List Nat → List Nat) (key data : List Nat) : List Nat :=
  (cbcEncBlocks E (key.take 16) (chunkList 16 data)).flatten

/-- AES-CBC decryption of a flat byte string with `iv = key[:16]`. -/
def aes_cbc_decrypt (D : List Nat → List Nat) (key ct : List Nat) : List Nat :=
  (cbcDecBlocks D (key.take 16) (chunkList 16 ct)).flatten

/-! ## Base64 codec

Models `base64.b64encode` exactly and `base64.b64decode` (lenient mode, as
called by the source) on its well-behaved inputs: characters outside the
alphabet are discarded, `=` padding is only accepted at the end, and a data
length of 1 mod 4 or ill-formed padding raises `binascii.Error`.  Canonical
encodings decode exactly. -/

/-- The base64 alphabet character for a 6-bit value. -/
def b64EncChar (n : Nat) : Char :=
  if n < 26 then Char.ofNat (65 + n)
  else if n < 52 then Char.ofNat (97 + (n - 26))
  else if n < 62 then Char.ofNat (48 + (n - 52))
  else if n = 62 then '+'
  else '/'

/-- The 6-bit value of a base64 alphabet character, `none` outside the
alphabet. -/
def b64Index (c : Char) : Option Nat :=
  if 'A' ≤ c ∧ c ≤ 'Z' then some (c.toNat - 65)
  else if 'a' ≤ c ∧ c ≤ 'z' then some (c.toNat - 97 + 26)
  else if '0' ≤ c ∧ c ≤ '9' then some (c.toNat - 48 + 52)
  else if c = '+' then some 62
  else if c = '/' then some 63
  else none

/-- Base64 encoding of one group of 1–3 bytes into 4 characters. -/
def b64EncodeGroup : List Nat → List Char
  | [b1] => [b64EncChar (b1 / 4), b64EncChar (b1 % 4 * 16), '=', '=']
  | [b1, b2] => [b64EncChar (b1 / 4), b64EncChar (b1 % 4 * 16 + b2 / 16),
      b64EncChar (b2 % 16 * 4), '=']
  | [b1, b2, b3] => [b64EncChar (b1 / 4), b64EncChar (b1 % 4 * 16 + b2 / 16),
      b64EncChar (b2 % 16 * 4 + b3 / 64), b64EncChar (b3 % 64)]
  | _ => []

/-- Base64 encoding of a byte string (`base64.b64encode(...).decode()`). -/
def base64Encode (bytes : List Nat) : String :=
  String.mk ((chunkList 3 bytes).map b64EncodeGroup).flatten

/-- Base64 decoding of one group of 2–4 alphabet characters. -/
def b64DecodeGroup (g : List Char) : List Nat :=
  match g.map (fun c => (b64Index c).getD 0) with
  | [v1, v2] => [v1 * 4 + v2 / 16]
  | [v1, v2, v3] => [v1 * 4 + v2 / 16, v2 % 16 * 16 + v3 / 4]
  | [v1, v2, v3, v4] => [v1 * 4 + v2 / 16, v2 % 16 * 16 + v3 / 4, v3 % 4 * 64 + v4]
  | _ => []

/-- Base64 decoding of a filtered character sequence (alphabet characters and
padding only): the data part is everything before the first `=`, the rest must
be padding, total length must be a multiple of 4 and the data length must not
be 1 mod 4. -/
def base64DecodeChars (cs : List Char) : Except PyErr (List Nat) :=
  if ¬ ((cs.drop (cs.takeWhile (fun c => c != '=')).length).all (fun c => c == '=')) then
    .error .binasciiError
  else if ((cs.takeWhile (fun c => c != '=')).length +
      (cs.drop (cs.takeWhile (fun c => c != '=')).length).length) % 4 ≠ 0 then
    .error .binasciiError
  else if (cs.takeWhile (fun c => c != '=')).length % 4 = 1 then
    .error .binasciiError
  else
    .ok ((chunkList 4 (cs.takeWhile (fun c => c != '='))).map b64DecodeGroup).flatten

/-- Base64 decoding of a string; `.error .binasciiError` models
`binascii.Error`. -/
def base64Decode (s : String) : Except PyErr (List Nat) :=
  base64DecodeChars (s.data.filter (fun c => (b64Index c).isSome || c == '='))

/-- Character-level base64 encoding of a byte string. -/
def b64EncodeChars (bytes : List Nat) : List Char :=
  ((chunkList 3 bytes).map b64EncodeGroup).flatten

/-! ## Big-endian 32-bit integers

Models `struct.pack(">I", n)` and `struct.unpack(">I", bytes)` from
`src/src/wechat/crypto.py`. -/

/-- Value of a 4-byte big-endian word (missing positions count as zero; only
applied to length-4 lists). -/
def be32 (l : List Nat) : Nat :=
  l.getD 0 0 * 16777216 + l.getD 1 0 * 65536 + l.getD 2 0 * 256 + l.getD 3 0

/-- Big-endian serialisation of a 32-bit value, `struct.pack(">I", n)`; the
source only applies it to values below `2^32` (Python raises otherwise). -/
def packU32 (n : Nat) : List Nat :=
  [n / 16777216 % 256, n / 65536 % 256, n / 256 % 256, n % 256]

/-- `struct.unpack(">I", b)` requires exactly 4 bytes, else raises
`struct.error`. -/
def readU32 (l : List Nat) : Except PyErr Nat :=
  if l.length = 4 then .ok (be32 l) else .error .structError

/-- Python negative-index slice `buf[:-p]`: for `p = 0` this is `buf[:0]`,
i.e. empty; otherwise it drops the last `p` elements (empty when `p` exceeds
the length). -/
def sliceNegEnd (l : List α) (p : Nat) : List α :=
  if p = 0 then [] else l.take (l.length - p)

/-! ## Signature codec (`WeChatCrypto.generate_signature` /
`WeChatCrypto.verify_signature`)

Python sorts the four strings (`data.sort()`), joins them with no separator
and takes the lowercase hex SHA-1 digest.  The digest function is a parameter
(the source calls `hashlib.sha1`, external to the repository); `sha1Hex`
below is a concrete executable model of it. -/

/-- Lexicographic strict order on code-point sequences, as Python compares
strings. -/
def pyStrLtChars : List Char → List Char → Bool
  | [], [] => false
  | [], _ :: _ => true
  | _ :: _, [] => false
  | a :: as, b :: bs => if a < b then true else if b < a then false else pyStrLtChars as bs

/-- Python string comparison `x <= y`. -/
def pyStrLe (x y : String) : Bool := ¬ pyStrLtChars y.data x.data

/-- Insert a string into a sorted list (ascending lexicographic order on code
points, as Python compares strings). -/
def insertSorted (x : String) : List String → List String
  | [] => [x]
  | y :: ys => if pyStrLe x y then x :: y :: ys else y :: insertSorted x ys

/-- Insertion sort modelling Python `list.sort()` on strings. -/
def pySort : List String → List String
  | [] => []
  | x :: xs => insertSorted x (pySort xs)

/-- `WeChatCrypto.generate_signature`: sort the token, timestamp, nonce and
payload, join with no separator, digest. -/
def generate_signature (digest : String → String)
    (token timestamp nonce echostr : String) : String :=
  digest (String.join (pySort [token, timestamp, nonce, echostr]))

/-- `WeChatCrypto.verify_signature`: recompute and compare. -/
def verify_signature (digest : String → String) (token : String)
    (signature timestamp nonce echostr : String) : Bool :=
  signature == generate_signature digest token timestamp nonce echostr

/-! ## Envelope codec (`WeChatCrypto.encrypt` / `WeChatCrypto.decrypt`)

The AES block permutation is a parameter `E` (encryption direction) / `D`
(decryption direction); the source obtains it from the external
`cryptography` library keyed by the shared secret. -/

/-- `WeChatCrypto.decrypt` after base64 decoding: AES-CBC decrypt with
`iv = key[:16]` (raises `ValueError` when the input is not a multiple of the
block size), strip `pad_len = decrypted[-1]` bytes (`IndexError` on an empty
buffer), then parse `16-byte prefix ++ 4-byte length ++ message ++
4-byte length ++ corp_id` with strict UTF-8 decoding of both strings.
`parseDecrypted` is the post-AES part (pad strip and layout parse). -/
def parseDecrypted (decrypted : List Nat) : Except PyErr (String × String) :=
  match decrypted.getLast? with
  | none => .error .indexError
  | some padLen =>
    let stripped := sliceNegEnd decrypted padLen
    match readU32 ((stripped.drop 16).take 4) with
    | .error e => .error e
    | .ok msgLen =>
      let message := (stripped.drop 20).take msgLen
      match readU32 ((stripped.drop (20 + msgLen)).take 4) with
      | .error e => .error e
      | .ok corpLen =>
        let corpBytes := (stripped.drop (20 + msgLen + 4)).take corpLen
        match utf8DecodeString corpBytes with
        | none => .error .unicodeError
        | some corpId =>
          match utf8DecodeString message with
          | none => .error .unicodeError
          | some msg => .ok (corpId, msg)

def decryptBytes (D : List Nat → List Nat) (key : List Nat) (encrypted : List Nat) :
    Except PyErr (String × String) :=
  if encrypted.length % 16 ≠ 0 then .error .valueError
  else parseDecrypted (aes_cbc_decrypt D key encrypted)

/-- `WeChatCrypto.decrypt`: base64-decode, then `decryptBytes`. -/
def decrypt (D : List Nat → List Nat) (key : List Nat) (encrypted_text : String) :
    Except PyErr (String × String) :=
  match base64Decode encrypted_text with
  | .error e => .error e
  | .ok encrypted => decryptBytes D key encrypted

/-- `WeChatCrypto.encrypt` before base64 encoding: build
`random(16) ++ pack(len(msg)) ++ msg ++ pack(len(corp_id)) ++ corp_id`, pad
with `pad_len = 32 - len % 32` bytes each of value `pad_len`, AES-CBC encrypt
with `iv = key[:16]`.  The 16 random bytes from `os.urandom(16)` are a
parameter. -/
def encryptBytes (E : List Nat → List Nat) (key randomBytes : List Nat)
    (corpId message : String) : List Nat :=
  let msgBytes := utf8EncodeString message
  let corpBytes := utf8EncodeString corpId
  let data := randomBytes ++ (packU32 msgBytes.length ++ (msgBytes ++
    (packU32 corpBytes.length ++ corpBytes)))
  let padLen := 32 - data.length % 32
  let padded := data ++ List.replicate padLen padLen
  aes_cbc_encrypt E key padded

/-- `WeChatCrypto.encrypt`: `encryptBytes`, then base64 encoding. -/
def encrypt (E : List Nat → List Nat) (key randomBytes : List Nat)
    (corpId message : String) : String :=
  base64Encode (encryptBytes E key randomBytes corpId message)

/-! ## SHA-1

Concrete executable model of `hashlib.sha1(...).hexdigest()` (FIPS 180-4),
used by the signature codec for the spec's concrete test vector.  All words
are `Nat` reduced modulo `2^32`. -/

/-- Left rotation of a 32-bit word. -/
def rotl32 (n x : Nat) : Nat := (x * 2 ^ n + x / 2 ^ (32 - n)) % 4294967296

/-- The SHA-1 round function for round `t`. -/
def sha1F (t b c d : Nat) : Nat :=
  if t < 20 then (b &&& c) ||| ((b ^^^ 4294967295) &&& d)
  else if t < 40 then b ^^^ c ^^^ d
  else if t < 60 then (b &&& c) ||| (b &&& d) ||| (c &&& d)
  else b ^^^ c ^^^ d

/-- The SHA-1 round constant for round `t`. -/
def sha1K (t : Nat) : Nat :=
  if t < 20 then 1518500249
  else if t < 40 then 1859775393
  else if t < 60 then 2400959708
  else 3395469782

/-- Extend the 16 message-schedule words by `k` further words. -/
def sha1Extend (w : List Nat) : Nat → List Nat
  | 0 => w
  | k + 1 =>
    let w' := sha1Extend w k
    let x := (w'.getD (w'.length - 3) 0) ^^^ (w'.getD (w'.length - 8) 0) ^^^
      (w'.getD (w'.length - 14) 0) ^^^ (w'.getD (w'.length - 16) 0)
    w' ++ [rotl32 1 x]

/-- One SHA-1 round applied to the working state `(a, b, c, d, e)`. -/
def sha1Round (w : List Nat) (st : Nat × Nat × Nat × Nat × Nat) (t : Nat) :
    Nat × Nat × Nat × Nat × Nat :=
  ((rotl32 5 st.1 + sha1F t st.2.1 st.2.2.1 st.2.2.2.1 + st.2.2.2.2 +
    sha1K t + w.getD t 0) % 4294967296,
   st.1, rotl32 30 st.2.1, st.2.2.1, st.2.2.2.1)

/-- Process one 64-byte block. -/
def sha1Block (st : Nat × Nat × Nat × Nat × Nat) (block : List Nat) :
    Nat × Nat × Nat × Nat × Nat :=
  let w := sha1Extend ((chunkList 4 block).map be32) 64
  let r := (List.range 80).foldl (sha1Round w) st
  ((st.1 + r.1) % 4294967296, (st.2.1 + r.2.1) % 4294967296,
   (st.2.2.1 + r.2.2.1) % 4294967296, (st.2.2.2.1 + r.2.2.2.1) % 4294967296,
   (st.2.2.2.2 + r.2.2.2.2) % 4294967296)

/-- Big-endian serialisation of a 64-bit value. -/
def packU64 (n : Nat) : List Nat :=
  [n / 72057594037927936 % 256, n / 281474976710656 % 256, n / 1099511627776 % 256,
   n / 4294967296 % 256, n / 16777216 % 256, n / 65536 % 256, n / 256 % 256, n % 256]

/-- SHA-1 message padding: `0x80`, zeros to 56 mod 64, 8-byte bit length. -/
def sha1Pad (msg : List Nat) : List Nat :=
  msg ++ [128] ++ List.replicate ((56 + 64 - (msg.length + 1) % 64) % 64) 0 ++
    packU64 (msg.length * 8)

/-- Lowercase hex digit. -/
def hexDigit (n : Nat) : Char :=
  if n < 10 then Char.ofNat (48 + n) else Char.ofNat (87 + n)

/-- Eight lowercase hex digits of a 32-bit word. -/
def toHex8 (n : Nat) : List Char :=
  [hexDigit (n / 268435456 % 16), hexDigit (n / 16777216 % 16),
   hexDigit (n / 1048576 % 16), hexDigit (n / 65536 % 16), hexDigit (n / 4096 % 16),
   hexDigit (n / 256 % 16), hexDigit (n / 16 % 16), hexDigit (n % 16)]

/-- `hashlib.sha1(s.encode()).hexdigest()`. -/
def sha1Hex (s : String) : String :=
  let st := (chunkList 64 (sha1Pad (utf8EncodeString s))).foldl sha1Block
    (1732584193, 4023233417, 2562383102, 271733878, 3285377520)
  String.mk (toHex8 st.1 ++ toHex8 st.2.1 ++ toHex8 st.2.2.1 ++ toHex8 st.2.2.2.1 ++
    toHex8 st.2.2.2.2)

/-! ## Single-character flips change the sorted concatenation

The key observation behind the spec's property: replacing one character of one
field changes the multiset of characters of the four fields, so the sorted
concatenation — and hence the digest input — always changes. -/

/-- Replacing the character at (code-point) position `i` by `c`, the
single-character flip of the spec. -/
def replaceCharAt (s : String) (i : Nat) (c : Char) : String :=
  String.mk (s.data.set i c)

/-! ## Python string helpers used by the server and AI layers -/

/-- Whitespace characters stripped by Python `str.strip()` (the ASCII subset,
which covers every call site in this code base). -/
def isPySpace (c : Char) : Bool :=
  c = ' ' ∨ c = '\t' ∨ c = '\n' ∨ c = '\r' ∨ c = Char.ofNat 11 ∨ c = Char.ofNat 12

/-- Python `str.strip()`. -/
def pyStrip (s : String) : String :=
  String.mk (((s.data.dropWhile isPySpace).reverse.dropWhile isPySpace).reverse)

/-- Python `str.startswith(p)`. -/
def pyStartsWith (s p : String) : Bool := p.data.isPrefixOf s.data

/-- Python slice `s[n:]` (by code points, as Python indexes strings). -/
def pyDrop (s : String) (n : Nat) : String := String.mk (s.data.drop n)

/-- Fuelled worker for `pyReplace`; fuel equal to the input length suffices for
a non-empty pattern. -/
def replaceStrChars (pat rep : List Char) : Nat → List Char → List Char
  | _, [] => []
  | 0, l => l
  | fuel + 1, x :: xs =>
    if pat ≠ [] ∧ pat.isPrefixOf (x :: xs) then
      rep ++ replaceStrChars pat rep fuel ((x :: xs).drop pat.length)
    else
      x :: replaceStrChars pat rep fuel xs

/-- Python `str.replace(pat, rep)`: replace all non-overlapping occurrences
left to right (every call site uses a non-empty pattern). -/
def pyReplace (s pat rep : String) : String :=
  String.mk (replaceStrChars pat.data rep.data s.data.length s.data)

/-! ## Workspace router (`IFlowBackend._get_workspace_path`,
`QwenBackend._get_workspace_path`, `IFlowBackend.create_session`,
`IFlowBackend._get_or_create_workspace`, `AISessionManager`)

The filesystem is modelled as a finite map from directory path to the list of
artifact names inside it.  The external agent's own writes into a workspace
are outside the model; the claims below are about what the service itself
creates and deletes. -/

/-- Serialise a session id to a directory name:
`session_id.replace(":", "_").replace("/", "_")`. -/
def safe_session_name (session_id : String) : String :=
  pyReplace (pyReplace session_id ":" "_") "/" "_"

/-- `self.workspace_base / safe_name`. -/
def get_workspace_path (workspace_base session_id : String) : String :=
  workspace_base ++ "/" ++ safe_session_name session_id

/-- A flat filesystem: directory path to artifact names. -/
abbrev FileSys := List (String × List String)

/-- Read a directory's contents (`none` when the directory does not exist). -/
def fsGet (fs : FileSys) (p : String) : Option (List String) :=
  match fs.find? (fun e => e.1 == p) with
  | some e => some e.2
  | none => none

/-- `Path.exists()`. -/
def fsExists (fs : FileSys) (p : String) : Bool := (fsGet fs p).isSome

/-- `shutil.rmtree(p)`. -/
def rmtree (fs : FileSys) (p : String) : FileSys := fs.filter (fun e => e.1 != p)

/-- `Path.mkdir(parents=True, exist_ok=True)` (parent entries are not tracked
in the flat model). -/
def mkdir_exist_ok (fs : FileSys) (p : String) : FileSys :=
  if fsExists fs p then fs else (p, []) :: fs

/-- In-memory state of `IFlowBackend`: the base directory and the
`_session_workspaces` cache. -/
structure BackendState where
  workspace_base : String
  session_workspaces : List (String × String)
  deriving DecidableEq, Repr

/-- In-memory state of `AISessionManager`: the `_user_sessions` map.  Both
in-memory maps are empty right after a process restart. -/
structure ManagerState where
  user_sessions : List (String × String)
  deriving DecidableEq, Repr

/-- Association-list lookup, modelling `dict.get`. -/
def dictGet (m : List (String × String)) (k : String) : Option String :=
  match m.find? (fun e => e.1 == k) with
  | some e => some e.2
  | none => none

/-- `IFlowBackend.create_session`: compute the workspace path for
`"user:" + user_id`, wipe it if it exists (`shutil.rmtree`), recreate it
empty, record it in the cache and return the session id. -/
def iflow_create_session (st : BackendState) (fs : FileSys) (user_id : String) :
    BackendState × FileSys × String :=
  let session_id := "user:" ++ user_id
  let workspace := get_workspace_path st.workspace_base session_id
  let fs1 := if fsExists fs workspace then rmtree fs workspace else fs
  let fs2 := mkdir_exist_ok fs1 workspace
  (⟨st.workspace_base, (session_id, workspace) :: st.session_workspaces⟩, fs2, session_id)

/-- `IFlowBackend._get_or_create_workspace`: return the cached workspace, or
create the directory (without wiping) and cache it. -/
def iflow_get_or_create_workspace (st : BackendState) (fs : FileSys)
    (session_id : String) : BackendState × FileSys × String :=
  match dictGet st.session_workspaces session_id with
  | some ws => (st, fs, ws)
  | none =>
    let ws := get_workspace_path st.workspace_base session_id
    (⟨st.workspace_base, (session_id, ws) :: st.session_workspaces⟩,
      mkdir_exist_ok fs ws, ws)

/-- The filesystem effect of `IFlowBackend.execute` before spawning the
agent: resolve or create the workspace.  The agent subprocess itself is an
external black box and its own writes are not modelled. -/
def iflow_backend_execute (st : BackendState) (fs : FileSys) (session_id : String) :
    BackendState × FileSys :=
  let r := iflow_get_or_create_workspace st fs session_id
  (r.1, r.2.1)

/-- `AISessionManager.execute_command` (backend fixed to iflow): look up the
in-memory session for `user_id + ":iflow"`; when absent (for example after a
process restart) call `create_session` — which wipes an existing workspace —
then execute. -/
def manager_execute_command (mst : ManagerState) (bst : BackendState) (fs : FileSys)
    (user_id : String) : ManagerState × BackendState × FileSys :=
  let session_key := user_id ++ ":iflow"
  match dictGet mst.user_sessions session_key with
  | some session_id =>
    let r := iflow_backend_execute bst fs session_id
    (mst, r.1, r.2)
  | none =>
    let r1 := iflow_create_session bst fs user_id
    let mst1 : ManagerState := ⟨(session_key, r1.2.2) :: mst.user_sessions⟩
    let r2 := iflow_backend_execute r1.1 r1.2.1 r1.2.2
    (mst1, r2.1, r2.2)

/-- `AISessionManager.new_session` (the `/new` reset): always
`create_session`, wiping the workspace. -/
def manager_new_session (mst : ManagerState) (bst : BackendState) (fs : FileSys)
    (user_id : String) : ManagerState × BackendState × FileSys :=
  let session_key := user_id ++ ":iflow"
  let r := iflow_create_session bst fs user_id
  (⟨(session_key, r.2.2) :: mst.user_sessions⟩, r.1, r.2.1)

/-! ## Execution engine (`IFlowBackend.execute`, `QwenBackend.execute`)

The subprocess is an external black box; its observable behaviour (timeout,
completion with output and exit code, missing executable) is the
`ProcOutcome` parameter, and the engine's process-control calls are recorded
as an ordered action trace. -/

/-- Result dataclass `AIResult(success, output, error)`. -/
structure AIResult where
  success : Bool
  output : String
  error : Option String
  deriving DecidableEq, Repr

/-- Observable behaviour of the agent subprocess. -/
inductive ProcOutcome where
  | timedOut
  | completed (stdout stderr : String) (returncode : Int)
  | notFound
  deriving DecidableEq, Repr

/-- Process-control actions the engine performs, in order. -/
inductive ProcAction where
  | spawned
  | killed
  | waited
  deriving DecidableEq, Repr

/-- `IFlowBackend._clean_output`: drop two Node.js warning fragments, then
strip. -/
def iflow_clean_output (output : String) : String :=
  pyStrip (pyReplace (pyReplace output
    "(node:1) ExperimentalWarning: buffer.File is an experimental feature. " "")
    "This feature could change at any time" "")

def iflow_timeout_error : String := "命令执行超时（>120 秒）"

def iflow_notfound_error : String := "未找到 iflow 命令，请确保已安装 iFlow CLI"

/-- `IFlowBackend.execute`: on timeout kill the child, wait for it, and
return the timeout result; on completion classify by exit code; on a missing
executable return the not-installed result. -/
def iflow_execute (proc : ProcOutcome) : List ProcAction × AIResult :=
  match proc with
  | .notFound => ([], ⟨false, "", some iflow_notfound_error⟩)
  | .timedOut => ([.spawned, .killed, .waited], ⟨false, "", some iflow_timeout_error⟩)
  | .completed stdout stderr returncode =>
    let cleaned := iflow_clean_output (stdout ++ stderr)
    if returncode = 0 then
      ([.spawned], ⟨true, if cleaned = "" then "命令执行完成" else cleaned, none⟩)
    else
      ([.spawned], ⟨false,
        if cleaned = "" then "命令执行失败，退出码：" ++ toString returncode else cleaned,
        none⟩)

def qwen_timeout_error : String := "命令执行超时（>120 秒）"

def qwen_notfound_error : String := "未找到 qwen 命令，请确保已安装 Qwen Code CLI"

/-- `QwenBackend.execute`: identical control flow with plain strip
cleaning. -/
def qwen_execute (proc : ProcOutcome) : List ProcAction × AIResult :=
  match proc with
  | .notFound => ([], ⟨false, "", some qwen_notfound_error⟩)
  | .timedOut => ([.spawned, .killed, .waited], ⟨false, "", some qwen_timeout_error⟩)
  | .completed stdout stderr returncode =>
    let cleaned := pyStrip (stdout ++ stderr)
    if returncode = 0 then
      ([.spawned], ⟨true, if cleaned = "" then "命令执行完成" else cleaned, none⟩)
    else
      ([.spawned], ⟨false,
        if cleaned = "" then "命令执行失败，退出码：" ++ toString returncode else cleaned,
        none⟩)

/-! ## Server layer (`src/src/server/app.py`, `src/src/wechat/handler.py`)

`parse_command`, `get_help_text`, `WeChatMessageHandler.parse_message` and
the POST callback handler `wechat_callback_post`.  The handler's
collaborators are parameters: whether the raw body decodes as UTF-8, the
outcome of the `parse_message` call (an `Except`, because `parse_message`
can itself raise: `int(xml_dict.get("CreateTime", 0))` sits outside every
`try` and the handler wraps the call in no `try` either), the `AIResult`
the session manager returns, the formatted `/status` text, and the
messaging client's behaviour (`SendEnv`).  `WeChatClient.send_text_message`
fetches the access token outside its try block and `get_access_token`
re-raises its failures, so a token failure escapes as an exception;
HTTP-post failures after that are caught and only make the send return
`False`. -/

/-- `parse_command` from `src/src/server/app.py`. -/
def parse_command (content : String) : String × String :=
  let c := pyStrip content
  if c = "/help" then ("", "help")
  else if c = "/new" then ("", "new")
  else if c = "/status" then ("", "status")
  else if pyStartsWith c "/run " then (pyStrip (pyDrop c 5), "run")
  else if c ≠ "" ∧ ¬ pyStartsWith c "/" then (c, "run")
  else ("", "unknown")

/-- `get_help_text` from `src/src/server/app.py`. -/
def get_help_text : String :=
  "iFlow 企业微信助手\n\n支持连续对话，自动保持上下文\n\n可用命令：\n- 直接发送消息：执行 iFlow 命令（自动恢复上次会话）\n- /run <命令>：执行 iFlow 命令\n- /new：开始新会话（清除上下文）\n- /status：查看服务状态\n- /help：显示此帮助\n\n提示：默认会自动恢复最近的会话，保持对话连续性。如需重新开始，请使用 /new 命令。\n\n示例：\n帮我写一个 Python 爬虫脚本\n再帮我添加异常处理\n继续完善这个脚本\n"

/-- The `WeChatMessage` dataclass. -/
structure WeChatMessage where
  from_user : String
  content : String
  msg_type : String
  agent_id : String
  create_time : Int
  deriving DecidableEq, Repr

/-- Observable side effects of one handler run. -/
inductive Effect where
  | sent (user msg : String)
  | newSession (user : String)
  | gotStatus (user : String)
  | executed (user command : String)
  deriving DecidableEq, Repr

/-- Behaviour of the messaging client: whether `get_access_token` raises, and
whether the HTTP post (whose exceptions are caught) fails. -/
structure SendEnv where
  tokenFails : Bool
  postFails : Bool
  deriving DecidableEq, Repr

/-- `WeChatClient.send_text_message`: token acquisition failures re-raise and
escape; post failures are caught and yield `False`. -/
def send_text_message (env : SendEnv) (user content : String) :
    Except PyErr (List Effect × Bool) :=
  if env.tokenFails then .error .tokenError
  else .ok ([.sent user content], !env.postFails)

/-- Send a list of messages in order (the chunk loop); the first escaping
exception aborts. -/
def send_many (env : SendEnv) (user : String) : List String → Except PyErr (List Effect)
  | [] => .ok []
  | m :: rest =>
    match send_text_message env user m with
    | .error e => .error e
    | .ok (effs, _) =>
      match send_many env user rest with
      | .error e => .error e
      | .ok more => .ok (effs ++ more)

/-- `[output[i:i+4000] for i in range(0, len(output), 4000)]`. -/
def chunk4000 (output : String) : List String :=
  (chunkList 4000 output.data).map String.mk

/-- The `[i+1/len] chunk` labels of the chunk loop. -/
def enumerate_chunks (chunks : List String) : List String :=
  chunks.enum.map (fun p =>
    "[" ++ toString (p.1 + 1) ++ "/" ++ toString chunks.length ++ "] " ++ p.2)

/-- The command-dispatch part of the POST handler, for a decoded text
message: classify the trimmed content and perform the sends of each
branch. -/
def handle_text_message (m : WeChatMessage) (execResult : AIResult)
    (statusText : String) (env : SendEnv) : Except PyErr (List Effect × String) :=
  if (parse_command (pyStrip m.content)).2 = "help" then
        match send_text_message env m.from_user get_help_text with
        | .error e => .error e
        | .ok (effs, _) => .ok (effs, "success")
      else if (parse_command (pyStrip m.content)).2 = "new" then
        match send_text_message env m.from_user "✅ 已开始新会话，下次对话将清除之前的上下文" with
        | .error e => .error e
        | .ok (effs, _) => .ok (Effect.newSession m.from_user :: effs, "success")
      else if (parse_command (pyStrip m.content)).2 = "status" then
        match send_text_message env m.from_user statusText with
        | .error e => .error e
        | .ok (effs, _) => .ok (Effect.gotStatus m.from_user :: effs, "success")
      else if (parse_command (pyStrip m.content)).2 = "run" then
        match send_text_message env m.from_user
          ("⏳ 正在执行：" ++ (parse_command (pyStrip m.content)).1) with
        | .error e => .error e
        | .ok (effs1, _) =>
          if execResult.success then
            if execResult.output.data.length ≤ 4000 then
              match send_text_message env m.from_user ("✅ " ++ execResult.output) with
              | .error e => .error e
              | .ok (effs2, _) =>
                .ok (effs1 ++
                  Effect.executed m.from_user (parse_command (pyStrip m.content)).1 :: effs2,
                  "success")
            else
              match send_many env m.from_user
                (enumerate_chunks (chunk4000 execResult.output)) with
              | .error e => .error e
              | .ok effs2 =>
                .ok (effs1 ++
                  Effect.executed m.from_user (parse_command (pyStrip m.content)).1 :: effs2,
                  "success")
          else
            match send_text_message env m.from_user ("❌ " ++
              (match execResult.error with
               | some e => if e = "" then execResult.output else e
               | none => execResult.output)) with
            | .error e => .error e
            | .ok (effs2, _) =>
              .ok (effs1 ++
                Effect.executed m.from_user (parse_command (pyStrip m.content)).1 :: effs2,
                "success")
  else
    match send_text_message env m.from_user "无法识别的命令，发送 /help 查看帮助" with
    | .error e => .error e
    | .ok (effs, _) => .ok (effs, "success")

/-- One lookup in the flat tag dictionary `xmltodict.parse(...)["xml"]`:
`none` is an absent key; a present key carries a string or Python `None`
(`xmltodict` yields `None` for an empty element). -/
def xmlLookup : List (String × Option String) → String → Option (Option String)
  | [], _ => none
  | (k, v) :: rest, key => if k = key then some v else xmlLookup rest key

/-- Python `xml_dict.get(key, default)` with a string default. -/
def xmlGetStr (d : List (String × Option String)) (key dflt : String) :
    Option String :=
  match xmlLookup d key with
  | some v => v
  | none => some dflt

/-- Python truthiness of a `str`-or-`None` field value. -/
def pyTruthy : Option String → Bool
  | none => false
  | some s => s ≠ ""

/-- The digit part of Python `int(str)`: ASCII digits with single
underscores allowed between digits. -/
def pyIntDigits : List Char → Nat → Option Nat
  | [], acc => some acc
  | c :: rest, acc =>
    if c.isDigit then pyIntDigits rest (acc * 10 + (c.toNat - 48))
    else if c = '_' then
      match rest with
      | [] => none
      | d :: rest' =>
        if d.isDigit then pyIntDigits rest' (acc * 10 + (d.toNat - 48))
        else none
    else none

/-- Python `int(str)`: optional surrounding whitespace, an optional sign,
then a non-empty digit part; anything else raises `ValueError`. -/
def pyIntOfString (s : String) : Except PyErr Int :=
  match (pyStrip s).data with
  | [] => .error .valueError
  | '-' :: d :: ds =>
    if d.isDigit then
      match pyIntDigits (d :: ds) 0 with
      | some n => .ok (-(n : Int))
      | none => .error .valueError
    else .error .valueError
  | '+' :: d :: ds =>
    if d.isDigit then
      match pyIntDigits (d :: ds) 0 with
      | some n => .ok (n : Int)
      | none => .error .valueError
    else .error .valueError
  | d :: ds =>
    if d.isDigit then
      match pyIntDigits (d :: ds) 0 with
      | some n => .ok (n : Int)
      | none => .error .valueError
    else .error .valueError

/-- `int(xml_dict.get("CreateTime", 0))` at `handler.py:119`: an absent key
falls back to the integer `0`; a present empty element (Python `None`)
raises `TypeError`; a present string goes through `int(str)`.  This call
sits outside both `try` blocks of `parse_message`. -/
def createTimeInt (d : List (String × Option String)) : Except PyErr Int :=
  match xmlLookup d "CreateTime" with
  | none => .ok 0
  | some none => .error .typeError
  | some (some s) => pyIntOfString s

/-- `WeChatMessageHandler.parse_message`: signature mismatch returns `None`;
`decrypt` and `xmltodict.parse` failures are caught and return `None` (the
external XML parser is the `xmlParse` parameter, yielding the flat tag
dictionary or `none` when it raises); a non-text `MsgType` and missing
`FromUserName`/`Content` return `None`.  The `int(...)` conversion of
`CreateTime` is outside every `try`, so its `ValueError`/`TypeError`
escapes to the caller — hence the `Except`.  An `AgentID` that is an empty
element is stored unchecked by the dataclass and never read again; the
model flattens it to `""`. -/
def parse_message (digest : String → String) (D : List Nat → List Nat)
    (key : List Nat) (token : String)
    (xmlParse : String → Option (List (String × Option String)))
    (msg_signature timestamp nonce encrypt : String) :
    Except PyErr (Option WeChatMessage) :=
  if generate_signature digest token timestamp nonce encrypt ≠ msg_signature then
    .ok none
  else
    match decrypt D key encrypt with
    | .error _ => .ok none
    | .ok (_, decrypted_xml) =>
      match xmlParse decrypted_xml with
      | none => .ok none
      | some xml_dict =>
        if xmlGetStr xml_dict "MsgType" "" ≠ some "text" then .ok none
        else
          match createTimeInt xml_dict with
          | .error e => .error e
          | .ok create_time =>
            if ¬ pyTruthy (xmlGetStr xml_dict "FromUserName" "")
                ∨ ¬ pyTruthy (xmlGetStr xml_dict "Content" "") then .ok none
            else .ok (some ⟨(xmlGetStr xml_dict "FromUserName" "").getD "",
              (xmlGetStr xml_dict "Content" "").getD "", "text",
              (xmlGetStr xml_dict "AgentID" "").getD "", create_time⟩)

/-- The POST message-callback handler `wechat_callback_post`.  `parseResult`
is the outcome of the `parse_message` call, which the handler wraps in no
`try`, so a raise in it propagates.  Returns the response body on normal
exit and the escaped exception otherwise. -/
def wechat_callback_post (bodyOk : Bool)
    (parseResult : Except PyErr (Option WeChatMessage))
    (execResult : AIResult) (statusText : String) (env : SendEnv) :
    Except PyErr (List Effect × String) :=
  if ¬ bodyOk then .error .bodyDecodeError
  else
    match parseResult with
    | .error e => .error e
    | .ok none => .ok ([], "success")
    | .ok (some m) =>
      if m.msg_type ≠ "text" then .ok ([], "success")
      else handle_text_message m execResult statusText env

/-! ## Reply chunker (`split_message_by_bytes` in `src/src/server.py`,
`WeChatClient._split_message` in `src/src/wechat.py` — identical code)

The Python loop slices `max_bytes` of the UTF-8 encoding, decodes, and on a
`UnicodeDecodeError` probes backward (`chunk_bytes[:i]` for
`i = len-1, …, 1`).  When no prefix decodes the `for` loop falls through
without advancing `start` and the `while` loop repeats the identical
iteration forever; the model returns `none` for that divergence.  Fuel equal
to `len(encoded) + 1` is exact for every terminating run, because every
iteration advances `start` by at least one byte. -/

/-- The backward probe: try `chunk.take i` for `i = k, k-1, …, 1`. -/
def backoffDecode (chunkBytes : List Nat) : Nat → Option (Nat × String)
  | 0 => none
  | i + 1 =>
    match utf8DecodeString (chunkBytes.take (i + 1)) with
    | some s => some (i + 1, s)
    | none => backoffDecode chunkBytes i

/-- The `while start < len(encoded)` loop of `split_message_by_bytes`. -/
def splitLoop (encoded : List Nat) (maxBytes : Nat) :
    Nat → Nat → List String → Option (List String)
  | 0, _, _ => none
  | fuel + 1, start, acc =>
    if encoded.length ≤ start then some acc.reverse
    else
      match utf8DecodeString ((encoded.drop start).take maxBytes) with
      | some chunk => splitLoop encoded maxBytes fuel (start + maxBytes) (chunk :: acc)
      | none =>
        match backoffDecode ((encoded.drop start).take maxBytes)
            (((encoded.drop start).take maxBytes).length - 1) with
        | some (i, chunk) => splitLoop encoded maxBytes fuel (start + i) (chunk :: acc)
        | none => none

/-- `split_message_by_bytes(content, max_bytes)` (the source's default budget
is 1500); `none` models non-termination of the Python loop. -/
def split_message_by_bytes (content : String) (maxBytes : Nat) : Option (List String) :=
  if (utf8EncodeString content).length ≤ maxBytes then some [content]
  else splitLoop (utf8EncodeString content) maxBytes
    ((utf8EncodeString content).length + 1) 0 []

/-- The greedy prefix of a character list whose encoding fits in `budget`
bytes. -/
def fitChars : List Char → Nat → List Char
  | [], _ => []
  | c :: cs, budget =>
    if (utf8EncodeScalar c.toNat).length ≤ budget then
      c :: fitChars cs (budget - (utf8EncodeScalar c.toNat).length)
    else []

theorem Bytes8.append {a b : List Nat} (ha : Bytes8 a) (hb : Bytes8 b) : Bytes8 (a ++ b) := by
  intro x hx
  rcases List.mem_append.mp hx with h | h
  · exact ha x h
  · exact hb x h

theorem Bytes8.of_append_left {a b : List Nat} (h : Bytes8 (a ++ b)) : Bytes8 a :=
  fun x hx => h x (List.mem_append.mpr (Or.inl hx))

theorem Bytes8.of_append_right {a b : List Nat} (h : Bytes8 (a ++ b)) : Bytes8 b :=
  fun x hx => h x (List.mem_append.mpr (Or.inr hx))

theorem Bytes8.take {a : List Nat} (h : Bytes8 a) (n : Nat) : Bytes8 (a.take n) :=
  fun x hx => h x (List.mem_of_mem_take hx)

theorem Bytes8.drop {a : List Nat} (h : Bytes8 a) (n : Nat) : Bytes8 (a.drop n) :=
  fun x hx => h x (List.mem_of_mem_drop hx)

theorem char_toNat_validScalar (c : Char) : ValidScalar c.toNat := by
  rcases c.valid with h | h
  · exact Or.inl h
  · exact Or.inr h

theorem utf8EncodeScalar_ne_nil (c : Nat) : utf8EncodeScalar c ≠ [] := by
  unfold utf8EncodeScalar
  split <;> try simp
  split <;> try simp
  split <;> simp

theorem utf8EncodeScalar_length_le (c : Nat) : (utf8EncodeScalar c).length ≤ 4 := by
  unfold utf8EncodeScalar
  split <;> try simp
  split <;> try simp
  split <;> simp

theorem utf8EncodeScalar_bytes8 (c : Nat) (h : c < 1114112) : Bytes8 (utf8EncodeScalar c) := by
  unfold utf8EncodeScalar
  intro x hx
  split at hx
  · simp at hx; omega
  · split at hx
    · simp at hx
      rcases hx with h1 | h1 <;> omega
    · split at hx
      · simp at hx
        rcases hx with h1 | h1 | h1 <;> omega
      · simp at hx
        rcases hx with h1 | h1 | h1 | h1 <;> omega

/-- Decoding the encoding of a valid scalar value recovers it, leaving the
remainder intact. -/
theorem utf8DecodeScalar_encode (c : Nat) (hv : ValidScalar c) (r : List Nat) :
    utf8DecodeScalar (utf8EncodeScalar c ++ r) = some (c, r) := by
  rcases hv with hv | hv
  · by_cases h1 : c < 128
    · simp [utf8EncodeScalar, utf8DecodeScalar, h1]
    · by_cases h2 : c < 2048
      · have hb0 : ¬(192 + c / 64 < 128) := by omega
        have hb0a : ¬(192 + c / 64 < 194) := by omega
        have hb0b : 192 + c / 64 < 224 := by omega
        simp only [utf8EncodeScalar, h1, h2, if_true, if_false, List.cons_append,
          List.nil_append, utf8DecodeScalar, hb0, hb0a, hb0b]
        have hc1 : 128 ≤ 128 + c % 64 ∧ 128 + c % 64 < 192 := by omega
        simp only [hc1, and_true, if_true, true_and]
        have : (192 + c / 64 - 192) * 64 + (128 + c % 64 - 128) = c := by omega
        simp [this]
        omega
      · have h3 : c < 65536 := by omega
        have hb0 : ¬(224 + c / 4096 < 128) := by omega
        have hb0a : ¬(224 + c / 4096 < 194) := by omega
        have hb0b : ¬(224 + c / 4096 < 224) := by omega
        have hb0c : 224 + c / 4096 < 240 := by omega
        simp only [utf8EncodeScalar, h1, h2, h3, if_true, if_false, List.cons_append,
          List.nil_append, utf8DecodeScalar, hb0, hb0a, hb0b, hb0c]
        have hc1 : 128 ≤ 128 + c / 64 % 64 ∧ 128 + c / 64 % 64 < 192 := by omega
        have hc2 : 128 ≤ 128 + c % 64 ∧ 128 + c % 64 < 192 := by omega
        have hval : (224 + c / 4096 - 224) * 4096 + (128 + c / 64 % 64 - 128) * 64 +
            (128 + c % 64 - 128) = c := by omega
        have hnot : ¬((224 + c / 4096 - 224) * 4096 + (128 + c / 64 % 64 - 128) * 64 +
            (128 + c % 64 - 128) < 2048 ∨
            (55296 ≤ (224 + c / 4096 - 224) * 4096 + (128 + c / 64 % 64 - 128) * 64 +
              (128 + c % 64 - 128) ∧
             (224 + c / 4096 - 224) * 4096 + (128 + c / 64 % 64 - 128) * 64 +
              (128 + c % 64 - 128) < 57344)) := by omega
        simp only [hc1.1, hc1.2, hc2.1, hc2.2, and_true, true_and, if_true]
        simp [hnot, hval]
        omega
  · have h1 : ¬c < 128 := by omega
    have h2 : ¬c < 2048 := by omega
    by_cases h3 : c < 65536
    · have hb0 : ¬(224 + c / 4096 < 128) := by omega
      have hb0a : ¬(224 + c / 4096 < 194) := by omega
      have hb0b : ¬(224 + c / 4096 < 224) := by omega
      have hb0c : 224 + c / 4096 < 240 := by omega
      simp only [utf8EncodeScalar, h1, h2, h3, if_true, if_false, List.cons_append,
        List.nil_append, utf8DecodeScalar, hb0, hb0a, hb0b, hb0c]
      have hc1 : 128 ≤ 128 + c / 64 % 64 ∧ 128 + c / 64 % 64 < 192 := by omega
      have hc2 : 128 ≤ 128 + c % 64 ∧ 128 + c % 64 < 192 := by omega
      have hval : (224 + c / 4096 - 224) * 4096 + (128 + c / 64 % 64 - 128) * 64 +
          (128 + c % 64 - 128) = c := by omega
      have hnot : ¬((224 + c / 4096 - 224) * 4096 + (128 + c / 64 % 64 - 128) * 64 +
          (128 + c % 64 - 128) < 2048 ∨
          (55296 ≤ (224 + c / 4096 - 224) * 4096 + (128 + c / 64 % 64 - 128) * 64 +
            (128 + c % 64 - 128) ∧
           (224 + c / 4096 - 224) * 4096 + (128 + c / 64 % 64 - 128) * 64 +
            (128 + c % 64 - 128) < 57344)) := by omega
      simp only [hc1.1, hc1.2, hc2.1, hc2.2, and_true, true_and, if_true]
      simp [hnot, hval]
      omega
    · have h4 : c < 1114112 := by omega
      have hb0 : ¬(240 + c / 262144 < 128) := by omega
      have hb0a : ¬(240 + c / 262144 < 194) := by omega
      have hb0b : ¬(240 + c / 262144 < 224) := by omega
      have hb0c : ¬(240 + c / 262144 < 240) := by omega
      have hb0d : 240 + c / 262144 < 245 := by omega
      simp only [utf8EncodeScalar, h1, h2, h3, if_true, if_false, List.cons_append,
        List.nil_append, utf8DecodeScalar, hb0, hb0a, hb0b, hb0c, hb0d]
      have hc1 : 128 ≤ 128 + c / 4096 % 64 ∧ 128 + c / 4096 % 64 < 192 := by omega
      have hc2 : 128 ≤ 128 + c / 64 % 64 ∧ 128 + c / 64 % 64 < 192 := by omega
      have hc3 : 128 ≤ 128 + c % 64 ∧ 128 + c % 64 < 192 := by omega
      have hval : (240 + c / 262144 - 240) * 262144 + (128 + c / 4096 % 64 - 128) * 4096 +
          (128 + c / 64 % 64 - 128) * 64 + (128 + c % 64 - 128) = c := by omega
      have hnot : ¬((240 + c / 262144 - 240) * 262144 + (128 + c / 4096 % 64 - 128) * 4096 +
          (128 + c / 64 % 64 - 128) * 64 + (128 + c % 64 - 128) < 65536 ∨
          1114112 ≤ (240 + c / 262144 - 240) * 262144 + (128 + c / 4096 % 64 - 128) * 4096 +
          (128 + c / 64 % 64 - 128) * 64 + (128 + c % 64 - 128)) := by omega
      simp only [hc1.1, hc1.2, hc2.1, hc2.2, hc3.1, hc3.2, and_true, true_and, if_true]
      simp [hnot, hval]
      omega

/-- Strict decoding only accepts canonical encodings: a successful one-scalar
decode means the input starts with the encoding of a valid scalar value. -/
theorem utf8DecodeScalar_sound : ∀ {bs : List Nat} {v : Nat} {r : List Nat},
    utf8DecodeScalar bs = some (v, r) → bs = utf8EncodeScalar v ++ r ∧ ValidScalar v := by
  intro bs v r h
  match bs with
  | [] => simp [utf8DecodeScalar] at h
  | b0 :: rest =>
    unfold utf8DecodeScalar at h
    by_cases h0 : b0 < 128
    · simp only [h0, if_true] at h
      obtain ⟨hv, hr⟩ := Prod.mk.inj (Option.some.inj h)
      subst hv; subst hr
      refine ⟨?_, Or.inl (by omega)⟩
      simp [utf8EncodeScalar, h0]
    · by_cases h1 : b0 < 194
      · simp [h0, h1] at h
      · by_cases h2 : b0 < 224
        · simp only [h0, h1, h2, if_false, if_true] at h
          match rest with
          | [] => simp at h
          | b1 :: r1 =>
            by_cases hb1 : 128 ≤ b1 ∧ b1 < 192
            · simp only [hb1, and_self, if_true] at h
              obtain ⟨hv, hr⟩ := Prod.mk.inj (Option.some.inj h)
              subst hv; subst hr
              have e1 : ¬((b0 - 192) * 64 + (b1 - 128) < 128) := by omega
              have e2 : (b0 - 192) * 64 + (b1 - 128) < 2048 := by omega
              refine ⟨?_, Or.inl (by omega)⟩
              simp only [utf8EncodeScalar, e1, e2, if_true, if_false]
              have : 192 + ((b0 - 192) * 64 + (b1 - 128)) / 64 = b0 := by omega
              have h2' : 128 + ((b0 - 192) * 64 + (b1 - 128)) % 64 = b1 := by omega
              simp [this, h2']
            · simp [hb1] at h
        · by_cases h3 : b0 < 240
          · simp only [h0, h1, h2, h3, if_false, if_true] at h
            match rest with
            | [] => simp at h
            | [b1] => simp at h
            | b1 :: b2 :: r2 =>
              by_cases hb : 128 ≤ b1 ∧ b1 < 192 ∧ 128 ≤ b2 ∧ b2 < 192
              · simp only [hb, and_self, if_true] at h
                set c := (b0 - 224) * 4096 + (b1 - 128) * 64 + (b2 - 128) with hc
                by_cases hrange : c < 2048 ∨ (55296 ≤ c ∧ c < 57344)
                · simp [hrange] at h
                · simp only [hrange, if_false, if_true] at h
                  obtain ⟨hv, hr⟩ := Prod.mk.inj (Option.some.inj h)
                  subst hv; subst hr
                  have e1 : ¬(c < 128) := by omega
                  have e2 : ¬(c < 2048) := by omega
                  have e3 : c < 65536 := by omega
                  refine ⟨?_, by unfold ValidScalar; omega⟩
                  simp only [utf8EncodeScalar, e1, e2, e3, if_true, if_false]
                  have q1 : 224 + c / 4096 = b0 := by omega
                  have q2 : 128 + c / 64 % 64 = b1 := by omega
                  have q3 : 128 + c % 64 = b2 := by omega
                  simp [q1, q2, q3]
              · simp [hb] at h
          · by_cases h4 : b0 < 245
            · simp only [h0, h1, h2, h3, h4, if_false, if_true] at h
              match rest with
              | [] => simp at h
              | [b1] => simp at h
              | [b1, b2] => simp at h
              | b1 :: b2 :: b3 :: r3 =>
                by_cases hb : 128 ≤ b1 ∧ b1 < 192 ∧ 128 ≤ b2 ∧ b2 < 192 ∧ 128 ≤ b3 ∧ b3 < 192
                · simp only [hb, and_self, if_true] at h
                  set c := (b0 - 240) * 262144 + (b1 - 128) * 4096 + (b2 - 128) * 64 +
                    (b3 - 128) with hc
                  by_cases hrange : c < 65536 ∨ 1114112 ≤ c
                  · simp [hrange] at h
                  · simp only [hrange, if_false, if_true] at h
                    obtain ⟨hv, hr⟩ := Prod.mk.inj (Option.some.inj h)
                    subst hv; subst hr
                    have e1 : ¬(c < 128) := by omega
                    have e2 : ¬(c < 2048) := by omega
                    have e3 : ¬(c < 65536) := by omega
                    refine ⟨?_, by unfold ValidScalar; omega⟩
                    simp only [utf8EncodeScalar, e1, e2, e3, if_true, if_false]
                    have q1 : 240 + c / 262144 = b0 := by omega
                    have q2 : 128 + c / 4096 % 64 = b1 := by omega
                    have q3 : 128 + c / 64 % 64 = b2 := by omega
                    have q4 : 128 + c % 64 = b3 := by omega
                    simp [q1, q2, q3, q4]
                · simp [hb] at h
            · simp [h0, h1, h2, h3, h4] at h

theorem toNat_ofNat_of_valid {v : Nat} (hv : ValidScalar v) : (Char.ofNat v).toNat = v := by
  have hv' : v.isValidChar := by
    rcases hv with h | h
    · exact Or.inl h
    · exact Or.inr ⟨h.1, h.2⟩
  simp [Char.ofNat, hv']
  rfl

theorem utf8EncodeChars_append (a b : List Char) :
    utf8EncodeChars (a ++ b) = utf8EncodeChars a ++ utf8EncodeChars b := by
  induction a with
  | nil => simp [utf8EncodeChars]
  | cons c cs ih => simp [utf8EncodeChars, ih]

theorem utf8DecodeChars_encode (cs : List Char) :
    ∀ fuel, (utf8EncodeChars cs).length ≤ fuel →
      utf8DecodeChars fuel (utf8EncodeChars cs) = some cs := by
  induction cs with
  | nil => intro fuel _; cases fuel <;> simp [utf8EncodeChars, utf8DecodeChars]
  | cons c cs ih =>
    intro fuel hf
    have hexp : utf8EncodeChars (c :: cs) =
        utf8EncodeScalar c.toNat ++ utf8EncodeChars cs := rfl
    have h1 : 1 ≤ (utf8EncodeScalar c.toNat).length := by
      cases hh : utf8EncodeScalar c.toNat with
      | nil => exact absurd hh (utf8EncodeScalar_ne_nil c.toNat)
      | cons x xs => simp
    have hpos : 1 ≤ fuel := by
      rw [hexp, List.length_append] at hf
      omega
    obtain ⟨f, rfl⟩ : ∃ f, fuel = f + 1 := ⟨fuel - 1, by omega⟩
    obtain ⟨b, bs, hm⟩ : ∃ b bs, utf8EncodeScalar c.toNat ++ utf8EncodeChars cs = b :: bs := by
      cases hh : utf8EncodeScalar c.toNat with
      | nil => exact absurd hh (utf8EncodeScalar_ne_nil c.toNat)
      | cons x xs => exact ⟨x, xs ++ utf8EncodeChars cs, by simp [hh]⟩
    have hdec := utf8DecodeScalar_encode c.toNat (char_toNat_validScalar c)
      (utf8EncodeChars cs)
    have hlen : (utf8EncodeChars cs).length ≤ f := by
      rw [hexp, List.length_append] at hf
      omega
    have hstep : utf8DecodeChars (f + 1) (b :: bs) =
        match utf8DecodeScalar (b :: bs) with
        | some (v, r) => (utf8DecodeChars f r).map (fun l => Char.ofNat v :: l)
        | none => none := rfl
    rw [hexp, hm, hstep, ← hm, hdec]
    show (utf8DecodeChars f (utf8EncodeChars cs)).map (fun l => Char.ofNat c.toNat :: l) =
      some (c :: cs)
    rw [ih f hlen]
    simp [Char.ofNat_toNat]

/-- Round trip: strict decoding inverts encoding on every string. -/
theorem utf8DecodeString_encode (s : String) :
    utf8DecodeString (utf8EncodeString s) = some s := by
  unfold utf8DecodeString utf8EncodeString
  rw [utf8DecodeChars_encode s.data _ (Nat.le_refl _)]
  cases s
  rfl

/-- Unique decoding: a successful strict decode means the bytes are exactly the
encoding of the result. -/
theorem utf8DecodeChars_sound : ∀ fuel {bs : List Nat} {cs : List Char},
    utf8DecodeChars fuel bs = some cs → bs = utf8EncodeChars cs := by
  intro fuel
  induction fuel with
  | zero =>
    intro bs cs h
    match bs with
    | [] => simp [utf8DecodeChars] at h; simp [utf8EncodeChars, h]
    | b :: rest => simp [utf8DecodeChars] at h
  | succ f ih =>
    intro bs cs h
    match bs with
    | [] => simp [utf8DecodeChars] at h; simp [utf8EncodeChars, h]
    | b :: rest =>
      unfold utf8DecodeChars at h
      match hd : utf8DecodeScalar (b :: rest) with
      | none => rw [hd] at h; simp at h
      | some (v, r) =>
        rw [hd] at h
        simp only [Option.map_eq_some'] at h
        obtain ⟨cs', hcs', hcons⟩ := h
        obtain ⟨hb, hv⟩ := utf8DecodeScalar_sound hd
        subst hcons
        have := ih hcs'
        simp only [utf8EncodeChars, ← this, toNat_ofNat_of_valid hv]
        exact hb

theorem utf8DecodeString_sound {bs : List Nat} {s : String}
    (h : utf8DecodeString bs = some s) : bs = utf8EncodeString s := by
  unfold utf8DecodeString at h
  simp only [Option.map_eq_some'] at h
  obtain ⟨cs, hcs, hmk⟩ := h
  have := utf8DecodeChars_sound _ hcs
  subst hmk
  exact this

theorem chunkList_nil (n : Nat) : chunkList n ([] : List α) = [] := rfl

theorem chunkListFuel_irrel {n : Nat} (hn : 0 < n) :
    ∀ (f1 : Nat) (l : List α) (f2 : Nat), l.length ≤ f1 → l.length ≤ f2 →
      chunkListFuel n f1 l = chunkListFuel n f2 l := by
  intro f1
  induction f1 with
  | zero =>
    intro l f2 h1 _
    match l with
    | [] => cases f2 <;> rfl
    | x :: xs => simp at h1
  | succ f ih =>
    intro l f2 h1 h2
    match l with
    | [] => cases f2 <;> rfl
    | x :: xs =>
      have hf2 : 1 ≤ f2 := by
        simp at h2
        omega
      obtain ⟨g, rfl⟩ : ∃ g, f2 = g + 1 := ⟨f2 - 1, by omega⟩
      show (if n = 0 then [x :: xs]
          else (x :: xs).take n :: chunkListFuel n f ((x :: xs).drop n)) =
        (if n = 0 then [x :: xs]
          else (x :: xs).take n :: chunkListFuel n g ((x :: xs).drop n))
      rw [if_neg (by omega), if_neg (by omega)]
      have hd : ((x :: xs).drop n).length ≤ f := by
        simp only [List.length_drop, List.length_cons] at h1 ⊢
        omega
      have hd2 : ((x :: xs).drop n).length ≤ g := by
        simp only [List.length_drop, List.length_cons] at h2 ⊢
        omega
      rw [ih _ _ hd hd2]

theorem chunkList_cons_eq {n : Nat} (hn : 0 < n) (x : α) (xs : List α) :
    chunkList n (x :: xs) = (x :: xs).take n :: chunkList n ((x :: xs).drop n) := by
  show chunkListFuel n (xs.length + 1) (x :: xs) = _
  show (if n = 0 then [x :: xs]
      else (x :: xs).take n :: chunkListFuel n xs.length ((x :: xs).drop n)) = _
  rw [if_neg (by omega)]
  unfold chunkList
  rw [chunkListFuel_irrel hn xs.length ((x :: xs).drop n) ((x :: xs).drop n).length
    (by simp only [List.length_drop, List.length_cons]; omega) (Nat.le_refl _)]

theorem chunkList_append_of_length {n : Nat} (a rest : List α)
    (ha : a.length = n) (hn : 0 < n) :
    chunkList n (a ++ rest) = a :: chunkList n rest := by
  match a with
  | [] =>
    rw [List.length_nil] at ha
    omega
  | x :: xs =>
    rw [List.cons_append, chunkList_cons_eq hn]
    rw [← List.cons_append, ← ha, List.take_left, List.drop_left]

theorem chunkList_join_bounded {n : Nat} (hn : 0 < n) :
    ∀ (len : Nat) (l : List α), l.length ≤ len → (chunkList n l).flatten = l := by
  intro len
  induction len with
  | zero =>
    intro l hl
    match l with
    | [] => simp [chunkList_nil]
    | x :: xs => simp at hl
  | succ m ih =>
    intro l hl
    match l with
    | [] => simp [chunkList_nil]
    | x :: xs =>
      rw [chunkList_cons_eq hn, List.flatten_cons]
      have hrec : ((x :: xs).drop n).length ≤ m := by
        simp only [List.length_drop, List.length_cons] at hl ⊢
        omega
      rw [ih _ hrec]
      exact List.take_append_drop n (x :: xs)

theorem chunkList_join {n : Nat} (hn : 0 < n) (l : List α) :
    (chunkList n l).flatten = l :=
  chunkList_join_bounded hn l.length l (Nat.le_refl _)

theorem chunkList_blocks_length_bounded {n : Nat} (hn : 0 < n) :
    ∀ (len : Nat) (l : List α), l.length ≤ len → n ∣ l.length →
      ∀ b ∈ chunkList n l, b.length = n := by
  intro len
  induction len with
  | zero =>
    intro l hl _ b hb
    match l with
    | [] => simp [chunkList_nil] at hb
    | x :: xs => simp at hl
  | succ m ih =>
    intro l hl hdvd b hb
    match l with
    | [] => simp [chunkList_nil] at hb
    | x :: xs =>
      rw [chunkList_cons_eq hn] at hb
      have hge : n ≤ (x :: xs).length := by
        rcases hdvd with ⟨k, hk⟩
        rcases Nat.eq_zero_or_pos k with hk0 | hk0
        · rw [hk0] at hk
          simp at hk
        · have : n * 1 ≤ n * k := Nat.mul_le_mul_left n hk0
          omega
      rcases List.mem_cons.mp hb with hb | hb
      · subst hb
        simp only [List.length_take]
        omega
      · have hrec : ((x :: xs).drop n).length ≤ m := by
          simp only [List.length_drop, List.length_cons] at hl ⊢
          omega
        refine ih _ hrec ?_ b hb
        rcases hdvd with ⟨k, hk⟩
        refine ⟨k - 1, ?_⟩
        simp only [List.length_drop]
        rw [hk, Nat.mul_sub_one]

theorem chunkList_blocks_length {n : Nat} (hn : 0 < n) (l : List α)
    (hdvd : n ∣ l.length) : ∀ b ∈ chunkList n l, b.length = n :=
  chunkList_blocks_length_bounded hn l.length l (Nat.le_refl _) hdvd

theorem chunkList_of_blocks {n : Nat} (hn : 0 < n) :
    ∀ blocks : List (List α), (∀ b ∈ blocks, b.length = n) →
      chunkList n blocks.flatten = blocks := by
  intro blocks
  induction blocks with
  | nil => intro _; simp [chunkList_nil]
  | cons b bs ih =>
    intro hlen
    rw [List.flatten_cons, chunkList_append_of_length b bs.flatten (hlen b (by simp)) hn]
    rw [ih (fun x hx => hlen x (by simp [hx]))]

theorem xorBytes_length (a b : List Nat) :
    (xorBytes a b).length = min a.length b.length := by
  simp [xorBytes]

theorem xorBytes_cancel : ∀ (a b : List Nat), a.length = b.length →
    xorBytes a (xorBytes a b) = b := by
  intro a
  induction a with
  | nil =>
    intro b hb
    have hb0 : b = [] := by
      cases b
      · rfl
      · simp at hb
    subst hb0
    rfl
  | cons x xs ih =>
    intro b hb
    match b with
    | [] => simp at hb
    | y :: ys =>
      simp only [xorBytes, List.zipWith]
      rw [show x ^^^ (x ^^^ y) = y by rw [← Nat.xor_assoc, Nat.xor_self, Nat.zero_xor]]
      have := ih ys (by simpa using hb)
      simp only [xorBytes] at this
      rw [this]

theorem xorBytes_bytes8 {a b : List Nat} (ha : Bytes8 a) (hb : Bytes8 b) :
    Bytes8 (xorBytes a b) := by
  intro x hx
  simp only [xorBytes] at hx
  rw [List.mem_iff_get] at hx
  obtain ⟨⟨i, hi⟩, hget⟩ := hx
  simp only [List.get_eq_getElem, List.getElem_zipWith] at hget
  subst hget
  have hia : i < a.length := by
    simp at hi
    omega
  have hib : i < b.length := by
    simp at hi
    omega
  have h256 : (256 : Nat) = 2 ^ 8 := by norm_num
  rw [h256]
  exact Nat.xor_lt_two_pow (h256 ▸ ha _ (List.getElem_mem hia))
    (h256 ▸ hb _ (List.getElem_mem hib))

theorem cbcDecBlocks_cbcEncBlocks (E D : List Nat → List Nat)
    (hED : ∀ b, D (E b) = b) (hElen : ∀ b, b.length = 16 → (E b).length = 16) :
    ∀ (blocks : List (List Nat)) (prev : List Nat), prev.length = 16 →
      (∀ b ∈ blocks, b.length = 16) →
      cbcDecBlocks D prev (cbcEncBlocks E prev blocks) = blocks := by
  intro blocks
  induction blocks with
  | nil => intro prev _ _; rfl
  | cons b bs ih =>
    intro prev hprev hblocks
    have hb : b.length = 16 := hblocks b (by simp)
    have hxlen : (xorBytes prev b).length = 16 := by
      rw [xorBytes_length, hprev, hb]
      simp
    have hclen : (E (xorBytes prev b)).length = 16 := hElen _ hxlen
    simp only [cbcEncBlocks, cbcDecBlocks]
    rw [hED, xorBytes_cancel prev b (by omega)]
    rw [ih (E (xorBytes prev b)) hclen (fun x hx => hblocks x (by simp [hx]))]

theorem cbcEncBlocks_blocks_length (E : List Nat → List Nat)
    (hElen : ∀ b, b.length = 16 → (E b).length = 16) :
    ∀ (blocks : List (List Nat)) (prev : List Nat), prev.length = 16 →
      (∀ b ∈ blocks, b.length = 16) →
      ∀ c ∈ cbcEncBlocks E prev blocks, c.length = 16 := by
  intro blocks
  induction blocks with
  | nil => intro prev _ _ c hc; simp [cbcEncBlocks] at hc
  | cons b bs ih =>
    intro prev hprev hblocks c hc
    have hb : b.length = 16 := hblocks b (by simp)
    have hxlen : (xorBytes prev b).length = 16 := by
      rw [xorBytes_length, hprev, hb]
      simp
    have hclen : (E (xorBytes prev b)).length = 16 := hElen _ hxlen
    simp only [cbcEncBlocks, List.mem_cons] at hc
    rcases hc with hc | hc
    · subst hc; exact hclen
    · exact ih (E (xorBytes prev b)) hclen (fun x hx => hblocks x (by simp [hx])) c hc

theorem cbcEncBlocks_bytes8 (E : List Nat → List Nat)
    (hElen : ∀ b, b.length = 16 → (E b).length = 16)
    (hEbytes : ∀ b, b.length = 16 → Bytes8 b → Bytes8 (E b)) :
    ∀ (blocks : List (List Nat)) (prev : List Nat), prev.length = 16 → Bytes8 prev →
      (∀ b ∈ blocks, b.length = 16 ∧ Bytes8 b) →
      ∀ c ∈ cbcEncBlocks E prev blocks, Bytes8 c := by
  intro blocks
  induction blocks with
  | nil => intro prev _ _ _ c hc; simp [cbcEncBlocks] at hc
  | cons b bs ih =>
    intro prev hprev hprevB hblocks c hc
    obtain ⟨hb, hbB⟩ := hblocks b (by simp)
    have hxlen : (xorBytes prev b).length = 16 := by
      rw [xorBytes_length, hprev, hb]
      simp
    have hxB : Bytes8 (xorBytes prev b) := xorBytes_bytes8 hprevB hbB
    have hclen : (E (xorBytes prev b)).length = 16 := hElen _ hxlen
    have hcB : Bytes8 (E (xorBytes prev b)) := hEbytes _ hxlen hxB
    simp only [cbcEncBlocks, List.mem_cons] at hc
    rcases hc with hc | hc
    · subst hc; exact hcB
    · exact ih (E (xorBytes prev b)) hclen hcB (fun x hx => hblocks x (by simp [hx])) c hc

theorem cbcEncBlocks_length (E : List Nat → List Nat) :
    ∀ (blocks : List (List Nat)) (prev : List Nat),
      (cbcEncBlocks E prev blocks).length = blocks.length := by
  intro blocks
  induction blocks with
  | nil => intro prev; rfl
  | cons b bs ih => intro prev; simp [cbcEncBlocks, ih]

theorem join_length_of_blocks {n : Nat} :
    ∀ blocks : List (List Nat), (∀ b ∈ blocks, b.length = n) →
      blocks.flatten.length = n * blocks.length := by
  intro blocks
  induction blocks with
  | nil => intro _; simp
  | cons b bs ih =>
    intro h
    simp only [List.flatten_cons, List.length_append, List.length_cons]
    rw [h b (by simp), ih (fun x hx => h x (by simp [hx]))]
    ring

theorem b64Index_encChar : ∀ n, n < 64 → b64Index (b64EncChar n) = some n := by decide

theorem b64EncChar_ne_pad : ∀ n, n < 64 → b64EncChar n ≠ '=' := by decide

theorem takeWhile_append_of_all {p : α → Bool} {a : List α} (b : List α)
    (ha : ∀ x ∈ a, p x = true) : (a ++ b).takeWhile p = a ++ b.takeWhile p := by
  induction a with
  | nil => simp
  | cons x xs ih =>
    rw [List.cons_append, List.takeWhile_cons, if_pos (ha x (by simp)),
      ih (fun y hy => ha y (by simp [hy])), List.cons_append]

theorem base64DecodeChars_append_group {g : List Char} {cs : List Char} {res : List Nat}
    (hg4 : g.length = 4) (hgpad : ∀ c ∈ g, (c != '=') = true)
    (h : base64DecodeChars cs = .ok res) :
    base64DecodeChars (g ++ cs) = .ok (b64DecodeGroup g ++ res) := by
  unfold base64DecodeChars at h ⊢
  rw [takeWhile_append_of_all cs hgpad]
  rw [List.length_append, hg4]
  have hdrop : (g ++ cs).drop (4 + (cs.takeWhile (fun c => c != '=')).length) =
      cs.drop (cs.takeWhile (fun c => c != '=')).length := by
    rw [show (4 : Nat) = g.length by rw [hg4]]
    exact List.drop_append _
  rw [hdrop]
  have hmod1 : (4 + (cs.takeWhile (fun c => c != '=')).length +
      (cs.drop (cs.takeWhile (fun c => c != '=')).length).length) % 4 =
      ((cs.takeWhile (fun c => c != '=')).length +
      (cs.drop (cs.takeWhile (fun c => c != '=')).length).length) % 4 := by
    omega
  have hmod2 : (4 + (cs.takeWhile (fun c => c != '=')).length) % 4 =
      (cs.takeWhile (fun c => c != '=')).length % 4 := by
    omega
  rw [hmod1, hmod2]
  split at h
  · exact absurd h (by simp)
  · split at h
    · exact absurd h (by simp)
    · split at h
      · exact absurd h (by simp)
      · rename_i hc1 hc2 hc3
        rw [if_neg hc1, if_neg hc2, if_neg hc3]
        rw [chunkList_append_of_length g _ hg4 (by omega)]
        simp only [List.map_cons, List.flatten_cons]
        simp only [Except.ok.injEq] at h
        rw [h]

theorem b64DecodeGroup_encodeGroup3 {b1 b2 b3 : Nat}
    (h1 : b1 < 256) (h2 : b2 < 256) (h3 : b3 < 256) :
    b64DecodeGroup (b64EncodeGroup [b1, b2, b3]) = [b1, b2, b3] := by
  unfold b64EncodeGroup b64DecodeGroup
  rw [List.map_cons, List.map_cons, List.map_cons, List.map_cons, List.map_nil]
  rw [b64Index_encChar (b1 / 4) (by omega),
    b64Index_encChar (b1 % 4 * 16 + b2 / 16) (by omega),
    b64Index_encChar (b2 % 16 * 4 + b3 / 64) (by omega),
    b64Index_encChar (b3 % 64) (by omega)]
  simp only [Option.getD_some]
  have e1 : b1 / 4 * 4 + (b1 % 4 * 16 + b2 / 16) / 16 = b1 := by omega
  have e2 : (b1 % 4 * 16 + b2 / 16) % 16 * 16 + (b2 % 16 * 4 + b3 / 64) / 4 = b2 := by omega
  have e3 : (b2 % 16 * 4 + b3 / 64) % 4 * 64 + b3 % 64 = b3 := by omega
  rw [e1, e2, e3]

theorem base64DecodeChars_nil : base64DecodeChars [] = .ok [] := by decide

theorem base64DecodeChars_tail1 {b1 : Nat} (h1 : b1 < 256) :
    base64DecodeChars (b64EncodeGroup [b1]) = .ok [b1] := by
  have hp1 : b64EncChar (b1 / 4) ≠ '=' := b64EncChar_ne_pad _ (by omega)
  have hp2 : b64EncChar (b1 % 4 * 16) ≠ '=' := b64EncChar_ne_pad _ (by omega)
  unfold b64EncodeGroup base64DecodeChars
  have htw : ([b64EncChar (b1 / 4), b64EncChar (b1 % 4 * 16), '=', '=']).takeWhile
      (fun c => c != '=') = [b64EncChar (b1 / 4), b64EncChar (b1 % 4 * 16)] := by
    simp only [List.takeWhile_cons]
    rw [if_pos (by simp [hp1]), if_pos (by simp [hp2]), if_neg (by simp)]
  rw [htw]
  simp only [List.length_cons, List.length_nil]
  rw [show ([b64EncChar (b1 / 4), b64EncChar (b1 % 4 * 16), '=', '=']).drop (0 + 1 + 1) =
    ['=', '='] from rfl]
  rw [if_neg (by simp), if_neg (by simp), if_neg (by simp)]
  have hchunk : chunkList 4 [b64EncChar (b1 / 4), b64EncChar (b1 % 4 * 16)] =
      [[b64EncChar (b1 / 4), b64EncChar (b1 % 4 * 16)]] := by
    rw [chunkList_cons_eq (by omega)]
    rfl
  rw [hchunk]
  simp only [List.map_cons, List.map_nil, List.flatten_cons, List.flatten_nil,
    List.append_nil]
  unfold b64DecodeGroup
  rw [List.map_cons, List.map_cons, List.map_nil]
  rw [b64Index_encChar (b1 / 4) (by omega), b64Index_encChar (b1 % 4 * 16) (by omega)]
  simp only [Option.getD_some]
  have e1 : b1 / 4 * 4 + b1 % 4 * 16 / 16 = b1 := by omega
  rw [e1]

theorem base64DecodeChars_tail2 {b1 b2 : Nat} (h1 : b1 < 256) (h2 : b2 < 256) :
    base64DecodeChars (b64EncodeGroup [b1, b2]) = .ok [b1, b2] := by
  have hp1 : b64EncChar (b1 / 4) ≠ '=' := b64EncChar_ne_pad _ (by omega)
  have hp2 : b64EncChar (b1 % 4 * 16 + b2 / 16) ≠ '=' := b64EncChar_ne_pad _ (by omega)
  have hp3 : b64EncChar (b2 % 16 * 4) ≠ '=' := b64EncChar_ne_pad _ (by omega)
  unfold b64EncodeGroup base64DecodeChars
  have htw : ([b64EncChar (b1 / 4), b64EncChar (b1 % 4 * 16 + b2 / 16),
      b64EncChar (b2 % 16 * 4), '=']).takeWhile (fun c => c != '=') =
      [b64EncChar (b1 / 4), b64EncChar (b1 % 4 * 16 + b2 / 16), b64EncChar (b2 % 16 * 4)] := by
    simp only [List.takeWhile_cons]
    rw [if_pos (by simp [hp1]), if_pos (by simp [hp2]), if_pos (by simp [hp3]),
      if_neg (by simp)]
  rw [htw]
  simp only [List.length_cons, List.length_nil]
  rw [show ([b64EncChar (b1 / 4), b64EncChar (b1 % 4 * 16 + b2 / 16),
    b64EncChar (b2 % 16 * 4), '=']).drop (0 + 1 + 1 + 1) = ['='] from rfl]
  rw [if_neg (by simp), if_neg (by simp), if_neg (by simp)]
  have hchunk : chunkList 4 [b64EncChar (b1 / 4), b64EncChar (b1 % 4 * 16 + b2 / 16),
      b64EncChar (b2 % 16 * 4)] =
      [[b64EncChar (b1 / 4), b64EncChar (b1 % 4 * 16 + b2 / 16), b64EncChar (b2 % 16 * 4)]] := by
    rw [chunkList_cons_eq (by omega)]
    rfl
  rw [hchunk]
  simp only [List.map_cons, List.map_nil, List.flatten_cons, List.flatten_nil,
    List.append_nil]
  unfold b64DecodeGroup
  rw [List.map_cons, List.map_cons, List.map_cons, List.map_nil]
  rw [b64Index_encChar (b1 / 4) (by omega),
    b64Index_encChar (b1 % 4 * 16 + b2 / 16) (by omega),
    b64Index_encChar (b2 % 16 * 4) (by omega)]
  simp only [Option.getD_some]
  have e1 : b1 / 4 * 4 + (b1 % 4 * 16 + b2 / 16) / 16 = b1 := by omega
  have e2 : (b1 % 4 * 16 + b2 / 16) % 16 * 16 + b2 % 16 * 4 / 4 = b2 := by omega
  rw [e1, e2]

theorem base64_roundtrip_chars_bounded :
    ∀ (len : Nat) (l : List Nat), l.length ≤ len → Bytes8 l →
      base64DecodeChars (b64EncodeChars l) = .ok l := by
  intro len
  induction len with
  | zero =>
    intro l hl _
    match l with
    | [] => exact base64DecodeChars_nil
    | x :: xs => simp at hl
  | succ m ih =>
    intro l hl hB
    match l with
    | [] => exact base64DecodeChars_nil
    | [b1] =>
      have hchunk : chunkList 3 [b1] = [[b1]] := by
        rw [chunkList_cons_eq (by omega)]
        rfl
      unfold b64EncodeChars
      rw [hchunk]
      simp only [List.map_cons, List.map_nil, List.flatten_cons, List.flatten_nil,
        List.append_nil]
      exact base64DecodeChars_tail1 (hB b1 (by simp))
    | [b1, b2] =>
      have hchunk : chunkList 3 [b1, b2] = [[b1, b2]] := by
        rw [chunkList_cons_eq (by omega)]
        rfl
      unfold b64EncodeChars
      rw [hchunk]
      simp only [List.map_cons, List.map_nil, List.flatten_cons, List.flatten_nil,
        List.append_nil]
      exact base64DecodeChars_tail2 (hB b1 (by simp)) (hB b2 (by simp))
    | b1 :: b2 :: b3 :: rest =>
      have hb1 : b1 < 256 := hB b1 (by simp)
      have hb2 : b2 < 256 := hB b2 (by simp)
      have hb3 : b3 < 256 := hB b3 (by simp)
      have hchunk : chunkList 3 (b1 :: b2 :: b3 :: rest) =
          [b1, b2, b3] :: chunkList 3 rest := by
        exact chunkList_append_of_length [b1, b2, b3] rest rfl (by omega)
      unfold b64EncodeChars
      rw [hchunk]
      simp only [List.map_cons, List.flatten_cons]
      have hrest : base64DecodeChars (b64EncodeChars rest) = .ok rest := by
        refine ih rest ?_ (fun x hx => hB x (by simp [hx]))
        simp only [List.length_cons] at hl
        omega
      have hglen : (b64EncodeGroup [b1, b2, b3]).length = 4 := by
        unfold b64EncodeGroup
        rfl
      have hgpad : ∀ c ∈ b64EncodeGroup [b1, b2, b3], (c != '=') = true := by
        intro c hc
        unfold b64EncodeGroup at hc
        simp only [List.mem_cons, List.not_mem_nil, or_false] at hc
        rcases hc with hc | hc | hc | hc <;> subst hc
        · simp [b64EncChar_ne_pad (b1 / 4) (by omega)]
        · simp [b64EncChar_ne_pad (b1 % 4 * 16 + b2 / 16) (by omega)]
        · simp [b64EncChar_ne_pad (b2 % 16 * 4 + b3 / 64) (by omega)]
        · simp [b64EncChar_ne_pad (b3 % 64) (by omega)]
      have := base64DecodeChars_append_group hglen hgpad hrest
      unfold b64EncodeChars at this
      rw [this, b64DecodeGroup_encodeGroup3 hb1 hb2 hb3]
      rfl

theorem b64EncodeGroup_chars_ok {g : List Nat} (hB : Bytes8 g) :
    ∀ c ∈ b64EncodeGroup g, ((b64Index c).isSome || c == '=') = true := by
  intro c hc
  match g with
  | [] => simp [b64EncodeGroup] at hc
  | [b1] =>
    have h1 : b1 < 256 := hB b1 (by simp)
    unfold b64EncodeGroup at hc
    simp only [List.mem_cons, List.not_mem_nil, or_false] at hc
    rcases hc with hc | hc | hc | hc <;> subst hc
    · simp [b64Index_encChar (b1 / 4) (by omega)]
    · simp [b64Index_encChar (b1 % 4 * 16) (by omega)]
    · simp
    · simp
  | [b1, b2] =>
    have h1 : b1 < 256 := hB b1 (by simp)
    have h2 : b2 < 256 := hB b2 (by simp)
    unfold b64EncodeGroup at hc
    simp only [List.mem_cons, List.not_mem_nil, or_false] at hc
    rcases hc with hc | hc | hc | hc <;> subst hc
    · simp [b64Index_encChar (b1 / 4) (by omega)]
    · simp [b64Index_encChar (b1 % 4 * 16 + b2 / 16) (by omega)]
    · simp [b64Index_encChar (b2 % 16 * 4) (by omega)]
    · simp
  | [b1, b2, b3] =>
    have h1 : b1 < 256 := hB b1 (by simp)
    have h2 : b2 < 256 := hB b2 (by simp)
    have h3 : b3 < 256 := hB b3 (by simp)
    unfold b64EncodeGroup at hc
    simp only [List.mem_cons, List.not_mem_nil, or_false] at hc
    rcases hc with hc | hc | hc | hc <;> subst hc
    · simp [b64Index_encChar (b1 / 4) (by omega)]
    · simp [b64Index_encChar (b1 % 4 * 16 + b2 / 16) (by omega)]
    · simp [b64Index_encChar (b2 % 16 * 4 + b3 / 64) (by omega)]
    · simp [b64Index_encChar (b3 % 64) (by omega)]
  | _ :: _ :: _ :: _ :: _ => simp [b64EncodeGroup] at hc

theorem b64EncodeChars_chars_ok {l : List Nat} (hB : Bytes8 l) :
    ∀ c ∈ b64EncodeChars l, ((b64Index c).isSome || c == '=') = true := by
  intro c hc
  unfold b64EncodeChars at hc
  rw [List.mem_flatten] at hc
  obtain ⟨chars, hchars, hcchars⟩ := hc
  rw [List.mem_map] at hchars
  obtain ⟨g, hg, hgenc⟩ := hchars
  have hgB : Bytes8 g := by
    intro x hx
    refine hB x ?_
    have : x ∈ (chunkList 3 l).flatten := List.mem_flatten.mpr ⟨g, hg, hx⟩
    rw [chunkList_join (by omega)] at this
    exact this
  subst hgenc
  exact b64EncodeGroup_chars_ok hgB c hcchars

/-- Round trip: base64 decoding inverts base64 encoding on byte strings. -/
theorem base64Decode_encode {l : List Nat} (hB : Bytes8 l) :
    base64Decode (base64Encode l) = .ok l := by
  unfold base64Decode base64Encode
  have hdata : (String.mk ((chunkList 3 l).map b64EncodeGroup).flatten).data =
      b64EncodeChars l := rfl
  rw [hdata]
  rw [List.filter_eq_self.mpr (b64EncodeChars_chars_ok hB)]
  exact base64_roundtrip_chars_bounded l.length l (Nat.le_refl _) hB

theorem packU32_length (n : Nat) : (packU32 n).length = 4 := rfl

theorem packU32_bytes8 (n : Nat) : Bytes8 (packU32 n) := by
  intro x hx
  simp only [packU32, List.mem_cons, List.not_mem_nil, or_false] at hx
  rcases hx with h | h | h | h <;> omega

theorem be32_packU32 {n : Nat} (h : n < 4294967296) : be32 (packU32 n) = n := by
  simp only [packU32, be32, List.getD, List.get?, Option.getD_some]
  omega

theorem readU32_packU32 {n : Nat} (h : n < 4294967296) :
    readU32 (packU32 n) = .ok n := by
  rw [readU32, if_pos (packU32_length n), be32_packU32 h]

theorem insertSorted_perm (x : String) :
    ∀ l : List String, List.Perm (insertSorted x l) (x :: l) := by
  intro l
  induction l with
  | nil => exact List.Perm.refl _
  | cons y ys ih =>
    unfold insertSorted
    by_cases h : pyStrLe x y = true
    · rw [if_pos h]
    · rw [if_neg h]
      exact (List.Perm.cons y ih).trans (List.Perm.swap x y ys)

theorem pySort_perm : ∀ l : List String, List.Perm (pySort l) l := by
  intro l
  induction l with
  | nil => exact List.Perm.refl _
  | cons x xs ih =>
    unfold pySort
    exact (insertSorted_perm x (pySort xs)).trans (List.Perm.cons x ih)

theorem utf8EncodeChars_bytes8 : ∀ cs : List Char, Bytes8 (utf8EncodeChars cs) := by
  intro cs
  induction cs with
  | nil => intro x hx; simp [utf8EncodeChars] at hx
  | cons c rest ih =>
    intro x hx
    simp only [utf8EncodeChars] at hx
    rcases List.mem_append.mp hx with h | h
    · have hval : c.toNat < 1114112 := by
        rcases char_toNat_validScalar c with h' | h' <;> omega
      exact utf8EncodeScalar_bytes8 c.toNat hval x h
    · exact ih x h

theorem utf8EncodeString_bytes8 (s : String) : Bytes8 (utf8EncodeString s) :=
  utf8EncodeChars_bytes8 s.data

/-- Parsing a well-formed decrypted buffer (the exact layout `encrypt`
builds) recovers the owner id and the message. -/
theorem parseDecrypted_layout (randomBytes msgBytes corpBytes : List Nat) (padLen : Nat)
    (corpId message : String)
    (hrand : randomBytes.length = 16)
    (hpad1 : 1 ≤ padLen)
    (hm : msgBytes.length < 4294967296)
    (hc : corpBytes.length < 4294967296)
    (hmval : utf8DecodeString msgBytes = some message)
    (hcval : utf8DecodeString corpBytes = some corpId) :
    parseDecrypted ((randomBytes ++ (packU32 msgBytes.length ++ (msgBytes ++
      (packU32 corpBytes.length ++ corpBytes)))) ++ List.replicate padLen padLen) =
      .ok (corpId, message) := by
  set data := randomBytes ++ (packU32 msgBytes.length ++ (msgBytes ++
    (packU32 corpBytes.length ++ corpBytes))) with hdata
  have hdataLen : data.length = 24 + msgBytes.length + corpBytes.length := by
    rw [hdata]
    simp only [List.length_append, packU32_length]
    omega
  have hgetLast : (data ++ List.replicate padLen padLen).getLast? = some padLen := by
    obtain ⟨q, hq⟩ : ∃ q, padLen = q + 1 := ⟨padLen - 1, by omega⟩
    rw [hq, List.replicate_succ', ← List.append_assoc]
    exact List.getLast?_concat _
  have hstrip : sliceNegEnd (data ++ List.replicate padLen padLen) padLen = data := by
    unfold sliceNegEnd
    rw [if_neg (by omega)]
    have he : (data ++ List.replicate padLen padLen).length - padLen = data.length := by
      simp only [List.length_append, List.length_replicate]
      omega
    rw [he, List.take_left]
  have hs1 : (data.drop 16).take 4 = packU32 msgBytes.length := by
    rw [hdata, show (16 : Nat) = randomBytes.length from hrand.symm, List.drop_left,
      show (4 : Nat) = (packU32 msgBytes.length).length from (packU32_length _).symm,
      List.take_left]
  have hs2 : (data.drop 20).take msgBytes.length = msgBytes := by
    rw [hdata, show (20 : Nat) = randomBytes.length + 4 from by rw [hrand],
      List.drop_append,
      show (4 : Nat) = (packU32 msgBytes.length).length from (packU32_length _).symm,
      List.drop_left, List.take_left]
  have hs3 : (data.drop (20 + msgBytes.length)).take 4 = packU32 corpBytes.length := by
    rw [hdata,
      show 20 + msgBytes.length = randomBytes.length + (4 + msgBytes.length) from by
        rw [hrand]; omega,
      List.drop_append,
      show 4 + msgBytes.length =
        (packU32 msgBytes.length).length + msgBytes.length from by
        rw [packU32_length],
      List.drop_append, List.drop_left,
      show (4 : Nat) = (packU32 corpBytes.length).length from (packU32_length _).symm,
      List.take_left]
  have hs4 : (data.drop (20 + msgBytes.length + 4)).take corpBytes.length = corpBytes := by
    rw [hdata,
      show 20 + msgBytes.length + 4 =
        randomBytes.length + (4 + (msgBytes.length + 4)) from by
        rw [hrand]; omega,
      List.drop_append,
      show 4 + (msgBytes.length + 4) =
        (packU32 msgBytes.length).length + (msgBytes.length + 4) from by
        rw [packU32_length],
      List.drop_append,
      List.drop_append,
      show (4 : Nat) = (packU32 corpBytes.length).length from (packU32_length _).symm,
      List.drop_left, List.take_length]
  unfold parseDecrypted
  rw [hgetLast]
  simp only [hstrip, hs1, readU32_packU32 hm]
  simp only [hs2, hs3, readU32_packU32 hc]
  simp only [hs4, hcval, hmval]

theorem bytes8_flatten {blocks : List (List Nat)} (h : ∀ b ∈ blocks, Bytes8 b) :
    Bytes8 blocks.flatten := by
  intro x hx
  rw [List.mem_flatten] at hx
  obtain ⟨b, hb, hxb⟩ := hx
  exact h b hb x hxb

theorem bytes8_replicate {n v : Nat} (h : v < 256) : Bytes8 (List.replicate n v) := by
  intro x hx
  rw [List.mem_replicate] at hx
  omega

/-- Byte-level round trip of the envelope codec: decrypting an encrypted
payload recovers the owner id and message, for any block permutation pair
`(E, D)` with `D ∘ E = id` and `E` length-preserving on 16-byte blocks. -/
theorem decryptBytes_encryptBytes
    (E D : List Nat → List Nat) (key randomBytes : List Nat) (corpId message : String)
    (hED : ∀ b, D (E b) = b)
    (hElen : ∀ b, b.length = 16 → (E b).length = 16)
    (hkey : 16 ≤ key.length)
    (hrand : randomBytes.length = 16)
    (hm : (utf8EncodeString message).length < 4294967296)
    (hc : (utf8EncodeString corpId).length < 4294967296) :
    decryptBytes D key (encryptBytes E key randomBytes corpId message) =
      .ok (corpId, message) := by
  set msgBytes := utf8EncodeString message with hmsgB
  set corpBytes := utf8EncodeString corpId with hcorpB
  set data := randomBytes ++ (packU32 msgBytes.length ++ (msgBytes ++
    (packU32 corpBytes.length ++ corpBytes))) with hdata
  set padLen := 32 - data.length % 32 with hpadLen
  set padded := data ++ List.replicate padLen padLen with hpadded
  have hpadRange : 1 ≤ padLen ∧ padLen ≤ 32 := by
    rw [hpadLen]
    omega
  have hpaddedLen : padded.length = data.length + padLen := by
    rw [hpadded]
    simp [List.length_append, List.length_replicate]
  have hmod32 : padded.length % 32 = 0 := by
    rw [hpaddedLen, hpadLen]
    omega
  have hmod16 : padded.length % 16 = 0 := by omega
  have hiv : (key.take 16).length = 16 := by
    simp only [List.length_take]
    omega
  have hblocks : ∀ b ∈ chunkList 16 padded, b.length = 16 :=
    chunkList_blocks_length (by omega) padded ⟨padded.length / 16, by omega⟩
  have hencLen : ∀ cb ∈ cbcEncBlocks E (key.take 16) (chunkList 16 padded), cb.length = 16 :=
    cbcEncBlocks_blocks_length E hElen _ _ hiv hblocks
  have henc : encryptBytes E key randomBytes corpId message =
      (cbcEncBlocks E (key.take 16) (chunkList 16 padded)).flatten := rfl
  have hctlen : ((cbcEncBlocks E (key.take 16) (chunkList 16 padded)).flatten).length % 16
      = 0 := by
    rw [join_length_of_blocks _ hencLen]
    omega
  have hdecrypt : aes_cbc_decrypt D key
      ((cbcEncBlocks E (key.take 16) (chunkList 16 padded)).flatten) = padded := by
    unfold aes_cbc_decrypt
    rw [chunkList_of_blocks (by omega) _ hencLen]
    rw [cbcDecBlocks_cbcEncBlocks E D hED hElen _ _ hiv hblocks]
    exact chunkList_join (by omega) padded
  rw [henc]
  unfold decryptBytes
  rw [if_neg (by omega), hdecrypt, hpadded, hdata]
  exact parseDecrypted_layout randomBytes msgBytes corpBytes padLen corpId message
    hrand hpadRange.1 hm hc (utf8DecodeString_encode message) (utf8DecodeString_encode corpId)

/-- The ciphertext built by `encryptBytes` has a byte length that is an exact
multiple of 32, and its length equals the padded plaintext length. -/
theorem encryptBytes_length_mod32
    (E : List Nat → List Nat) (key randomBytes : List Nat) (corpId message : String)
    (hElen : ∀ b, b.length = 16 → (E b).length = 16)
    (hkey : 16 ≤ key.length) :
    (encryptBytes E key randomBytes corpId message).length % 32 = 0 := by
  set msgBytes := utf8EncodeString message with hmsgB
  set corpBytes := utf8EncodeString corpId with hcorpB
  set data := randomBytes ++ (packU32 msgBytes.length ++ (msgBytes ++
    (packU32 corpBytes.length ++ corpBytes))) with hdata
  set padLen := 32 - data.length % 32 with hpadLen
  set padded := data ++ List.replicate padLen padLen with hpadded
  have hpaddedLen : padded.length = data.length + padLen := by
    rw [hpadded]
    simp [List.length_append, List.length_replicate]
  have hmod32 : padded.length % 32 = 0 := by
    rw [hpaddedLen, hpadLen]
    omega
  have hmod16 : padded.length % 16 = 0 := by omega
  have hiv : (key.take 16).length = 16 := by
    simp only [List.length_take]
    omega
  have hblocks : ∀ b ∈ chunkList 16 padded, b.length = 16 :=
    chunkList_blocks_length (by omega) padded ⟨padded.length / 16, by omega⟩
  have hencLen : ∀ cb ∈ cbcEncBlocks E (key.take 16) (chunkList 16 padded), cb.length = 16 :=
    cbcEncBlocks_blocks_length E hElen _ _ hiv hblocks
  have henc : encryptBytes E key randomBytes corpId message =
      (cbcEncBlocks E (key.take 16) (chunkList 16 padded)).flatten := rfl
  have h1 : ((cbcEncBlocks E (key.take 16) (chunkList 16 padded)).flatten).length =
      16 * (cbcEncBlocks E (key.take 16) (chunkList 16 padded)).length :=
    join_length_of_blocks _ hencLen
  have h2 : (cbcEncBlocks E (key.take 16) (chunkList 16 padded)).length =
      (chunkList 16 padded).length := cbcEncBlocks_length E _ _
  have h3 : (chunkList 16 padded).flatten.length = 16 * (chunkList 16 padded).length :=
    join_length_of_blocks _ hblocks
  have h4 : (chunkList 16 padded).flatten = padded := chunkList_join (by omega) padded
  rw [henc, h1, h2]
  rw [h4] at h3
  omega

/-- All bytes of the ciphertext built by `encryptBytes` are below 256. -/
theorem encryptBytes_bytes8
    (E : List Nat → List Nat) (key randomBytes : List Nat) (corpId message : String)
    (hElen : ∀ b, b.length = 16 → (E b).length = 16)
    (hEbytes : ∀ b, b.length = 16 → Bytes8 b → Bytes8 (E b))
    (hkey : 16 ≤ key.length) (hkeyB : Bytes8 key) :
    (randomBytes.length = 16) → Bytes8 randomBytes →
    Bytes8 (encryptBytes E key randomBytes corpId message) := by
  intro hrand hrandB
  set msgBytes := utf8EncodeString message with hmsgB
  set corpBytes := utf8EncodeString corpId with hcorpB
  set data := randomBytes ++ (packU32 msgBytes.length ++ (msgBytes ++
    (packU32 corpBytes.length ++ corpBytes))) with hdata
  set padLen := 32 - data.length % 32 with hpadLen
  set padded := data ++ List.replicate padLen padLen with hpadded
  have hpadRange : 1 ≤ padLen ∧ padLen ≤ 32 := by
    rw [hpadLen]
    omega
  have hdataB : Bytes8 data := by
    rw [hdata]
    exact hrandB.append ((packU32_bytes8 _).append ((utf8EncodeString_bytes8 message).append
      ((packU32_bytes8 _).append (utf8EncodeString_bytes8 corpId))))
  have hpaddedB : Bytes8 padded := by
    rw [hpadded]
    exact hdataB.append (bytes8_replicate (by omega))
  have hpaddedLen : padded.length = data.length + padLen := by
    rw [hpadded]
    simp [List.length_append, List.length_replicate]
  have hmod32 : padded.length % 32 = 0 := by
    rw [hpaddedLen, hpadLen]
    omega
  have hmod16 : padded.length % 16 = 0 := by omega
  have hiv : (key.take 16).length = 16 := by
    simp only [List.length_take]
    omega
  have hivB : Bytes8 (key.take 16) := hkeyB.take 16
  have hblocks : ∀ b ∈ chunkList 16 padded, b.length = 16 :=
    chunkList_blocks_length (by omega) padded ⟨padded.length / 16, by omega⟩
  have hblocksB : ∀ b ∈ chunkList 16 padded, b.length = 16 ∧ Bytes8 b := by
    intro b hb
    refine ⟨hblocks b hb, ?_⟩
    intro x hx
    refine hpaddedB x ?_
    have : x ∈ (chunkList 16 padded).flatten := List.mem_flatten.mpr ⟨b, hb, hx⟩
    rw [chunkList_join (by omega)] at this
    exact this
  have henc : encryptBytes E key randomBytes corpId message =
      (cbcEncBlocks E (key.take 16) (chunkList 16 padded)).flatten := rfl
  rw [henc]
  exact bytes8_flatten (cbcEncBlocks_bytes8 E hElen hEbytes _ _ hiv hivB hblocksB)

theorem foldl_append_data (L : List String) :
    ∀ init : String, (L.foldl (· ++ ·) init).data =
      init.data ++ (L.map String.data).flatten := by
  induction L with
  | nil => intro init; simp
  | cons s rest ih =>
    intro init
    simp only [List.foldl_cons, ih, List.map_cons, List.flatten_cons]
    rw [String.data_append]
    simp [List.append_assoc]

theorem stringJoin_data (L : List String) :
    (String.join L).data = (L.map String.data).flatten := by
  show (L.foldl (· ++ ·) "").data = _
  rw [foldl_append_data]
  rfl

theorem sortJoin_count (L : List String) (a : Char) :
    (String.join (pySort L)).data.count a =
      ((L.map String.data).map (List.count a)).sum := by
  rw [stringJoin_data, List.count_flatten]
  have hperm : List.Perm ((pySort L).map String.data) (L.map String.data) :=
    (pySort_perm L).map String.data
  exact (hperm.map (List.count a)).sum_eq

theorem count_set_lower {l : List Char} {i : Nat} (c : Char) (hi : i < l.length)
    (hc : c ≠ l.get ⟨i, hi⟩) :
    (l.set i c).count (l.get ⟨i, hi⟩) + 1 = l.count (l.get ⟨i, hi⟩) := by
  set old := l.get ⟨i, hi⟩ with hold
  have hdecomp : l = l.take i ++ old :: l.drop (i + 1) := by
    rw [hold]
    conv_lhs => rw [← List.take_append_drop i l]
    rw [List.drop_eq_getElem_cons hi]
    rfl
  have hset : l.set i c = l.take i ++ c :: l.drop (i + 1) := by
    rw [List.set_eq_take_append_cons_drop, if_pos hi]
  have hrhs : l.count old = (l.take i ++ old :: l.drop (i + 1)).count old := by
    conv_lhs => rw [hdecomp]
  rw [hset, hrhs]
  have h2 : (c == old) = false := by
    simp only [beq_eq_false_iff_ne]
    exact hc
  have h2' : (old == c) = false := by
    simp only [beq_eq_false_iff_ne]
    exact (Ne.symm hc)
  simp [List.count_append, List.count_cons, h2, h2']
  omega

/-- Flipping one character of one of the fields changes the digest of the
sorted concatenation, for any injective digest. -/
theorem digest_ne_of_flip (digest : String → String) (hinj : Function.Injective digest)
    (L : List String) (j i : Nat) (c : Char) (s : String) (hj : j < L.length)
    (hsval : L.get ⟨j, hj⟩ = s)
    (hi : i < s.data.length)
    (hc : c ≠ s.data.get ⟨i, hi⟩) :
    digest (String.join (pySort (L.set j (replaceCharAt s i c)))) ≠
      digest (String.join (pySort L)) := by
  intro heq
  have hjoin := hinj heq
  have hcount := congrArg (fun t : String => t.data.count (s.data.get ⟨i, hi⟩)) hjoin
  simp only at hcount
  rw [sortJoin_count, sortJoin_count] at hcount
  have hL : L = L.take j ++ s :: L.drop (j + 1) := by
    rw [← hsval]
    conv_lhs => rw [← List.take_append_drop j L]
    rw [List.drop_eq_getElem_cons hj]
    rfl
  have hsetL : L.set j (replaceCharAt s i c) =
      L.take j ++ replaceCharAt s i c :: L.drop (j + 1) := by
    rw [List.set_eq_take_append_cons_drop, if_pos hj]
  rw [hsetL] at hcount
  conv_rhs at hcount => rw [hL]
  simp only [List.map_append, List.map_cons, List.sum_append, List.sum_cons] at hcount
  have hcnt := count_set_lower c hi hc
  have hrc : (replaceCharAt s i c).data = s.data.set i c := rfl
  rw [hrc] at hcount
  omega

/-! ## Claim theorems for the codec layer -/

/-- C1: for every valid 32-byte shared secret, owner id string and content
string, decrypting the result of encrypting them returns exactly the original
pair: `decrypt (encrypt secret owner content) = ok (owner, content)`.
`encrypt` builds the payload (16-byte random prefix, 4-byte big-endian
content length, content, 4-byte big-endian owner-id length, owner id), pads
to a 32-byte boundary and AES-CBC-encrypts with IV = first 16 bytes of the
secret; `decrypt` inverts this.  The AES block permutation (external
`cryptography` library) is abstracted as any inverse pair `(E, D)` of
length-preserving byte-valued functions on 16-byte blocks; the 16 random
bytes of `os.urandom(16)` are an explicit parameter; the `< 2^32` length
bounds are those `struct.pack(">I", ...)` itself imposes. -/
theorem c1_envelope_roundtrip
    (E D : List Nat → List Nat) (key randomBytes : List Nat) (corpId message : String)
    (hED : ∀ b, D (E b) = b)
    (hElen : ∀ b, b.length = 16 → (E b).length = 16)
    (hEbytes : ∀ b, b.length = 16 → Bytes8 b → Bytes8 (E b))
    (hkey : key.length = 32) (hkeyB : Bytes8 key)
    (hrand : randomBytes.length = 16) (hrandB : Bytes8 randomBytes)
    (hm : (utf8EncodeString message).length < 4294967296)
    (hc : (utf8EncodeString corpId).length < 4294967296) :
    decrypt D key (encrypt E key randomBytes corpId message) = .ok (corpId, message) := by
  unfold decrypt encrypt
  rw [base64Decode_encode (encryptBytes_bytes8 E key randomBytes corpId message hElen
    hEbytes (by omega) hkeyB hrand hrandB)]
  exact decryptBytes_encryptBytes E D key randomBytes corpId message hED hElen (by omega)
    hrand hm hc

/-- Witness for C1 at the identity block permutation, an all-zero key and
random prefix, owner id `"wx123"` and content `"hi"`. -/
theorem c1_envelope_roundtrip_witness :
    decrypt (fun b => b) (List.replicate 32 0)
      (encrypt (fun b => b) (List.replicate 32 0) (List.replicate 16 0) "wx123" "hi") =
      .ok ("wx123", "hi") :=
  c1_envelope_roundtrip (fun b => b) (fun b => b) (List.replicate 32 0)
    (List.replicate 16 0) "wx123" "hi" (fun _ => rfl) (fun _ h => h) (fun _ _ hB => hB)
    (by decide) (bytes8_replicate (by decide)) (by decide) (bytes8_replicate (by decide))
    (by decide) (by decide)

/-- C9: for every shared secret, owner id and content, the output of
`encrypt`, once base64-decoded, has a byte length that is an exact multiple
of 32 (the payload is padded to the next multiple of 32, not the cipher's
native 16-byte block). -/
theorem c9_encrypt_pads_to_multiple_of_32
    (E : List Nat → List Nat) (key randomBytes : List Nat) (corpId message : String)
    (hElen : ∀ b, b.length = 16 → (E b).length = 16)
    (hEbytes : ∀ b, b.length = 16 → Bytes8 b → Bytes8 (E b))
    (hkey : key.length = 32) (hkeyB : Bytes8 key)
    (hrand : randomBytes.length = 16) (hrandB : Bytes8 randomBytes) :
    ∃ ct, base64Decode (encrypt E key randomBytes corpId message) = .ok ct ∧
      ct.length % 32 = 0 := by
  refine ⟨encryptBytes E key randomBytes corpId message, ?_,
    encryptBytes_length_mod32 E key randomBytes corpId message hElen (by omega)⟩
  unfold encrypt
  exact base64Decode_encode (encryptBytes_bytes8 E key randomBytes corpId message hElen
    hEbytes (by omega) hkeyB hrand hrandB)

/-- Witness for C9 at the identity block permutation with concrete inputs. -/
theorem c9_encrypt_pads_to_multiple_of_32_witness :
    ∃ ct, base64Decode (encrypt (fun b => b) (List.replicate 32 0)
      (List.replicate 16 0) "wx123" "hello world") = .ok ct ∧ ct.length % 32 = 0 :=
  c9_encrypt_pads_to_multiple_of_32 (fun b => b) (List.replicate 32 0)
    (List.replicate 16 0) "wx123" "hello world" (fun _ h => h) (fun _ _ hB => hB)
    (by decide) (bytes8_replicate (by decide)) (by decide) (bytes8_replicate (by decide))

set_option maxRecDepth 8192 in
/-- C3: for every token, timestamp, nonce and payload, verifying the
signature produced by `generate_signature` succeeds; and replacing any single
character of any one of the four fields (by a different character) makes
`verify_signature` return false — the sorted concatenation always changes,
so the property holds for every injective digest (the symbolic model of the
collision-free SHA-1 the source uses).  The concrete scenario is checked with
the real SHA-1: token `"abc"`, timestamp `"1"`, nonce `"2"`, echo `"hello"`
gives the fixed 40-hex digest of `"12abchello"`, and changing the echo to
`"hellp"` makes verification fail. -/
theorem c3_sign_verify_roundtrip_and_flip
    (digest : String → String) (hinj : Function.Injective digest) :
    (∀ token timestamp nonce payload : String,
      verify_signature digest token
        (generate_signature digest token timestamp nonce payload)
        timestamp nonce payload = true)
    ∧ (∀ token timestamp nonce payload : String, ∀ i : Nat, ∀ c : Char,
        ∀ hi : i < token.data.length, c ≠ token.data.get ⟨i, hi⟩ →
        verify_signature digest (replaceCharAt token i c)
          (generate_signature digest token timestamp nonce payload)
          timestamp nonce payload = false)
    ∧ (∀ token timestamp nonce payload : String, ∀ i : Nat, ∀ c : Char,
        ∀ hi : i < timestamp.data.length, c ≠ timestamp.data.get ⟨i, hi⟩ →
        verify_signature digest token
          (generate_signature digest token timestamp nonce payload)
          (replaceCharAt timestamp i c) nonce payload = false)
    ∧ (∀ token timestamp nonce payload : String, ∀ i : Nat, ∀ c : Char,
        ∀ hi : i < nonce.data.length, c ≠ nonce.data.get ⟨i, hi⟩ →
        verify_signature digest token
          (generate_signature digest token timestamp nonce payload)
          timestamp (replaceCharAt nonce i c) payload = false)
    ∧ (∀ token timestamp nonce payload : String, ∀ i : Nat, ∀ c : Char,
        ∀ hi : i < payload.data.length, c ≠ payload.data.get ⟨i, hi⟩ →
        verify_signature digest token
          (generate_signature digest token timestamp nonce payload)
          timestamp nonce (replaceCharAt payload i c) = false)
    ∧ generate_signature sha1Hex "abc" "1" "2" "hello" =
        "99217efb6c1c895be7e0c65c61ee06048045841b"
    ∧ verify_signature sha1Hex "abc"
        (generate_signature sha1Hex "abc" "1" "2" "hello") "1" "2" "hellp" = false := by
  refine ⟨?_, ?_, ?_, ?_, ?_, ?_, ?_⟩
  · intro token timestamp nonce payload
    unfold verify_signature
    simp
  · intro token timestamp nonce payload i c hi hc
    have hne := digest_ne_of_flip digest hinj [token, timestamp, nonce, payload] 0 i c
      token (by simp) rfl hi hc
    have hset : [token, timestamp, nonce, payload].set 0 (replaceCharAt token i c) =
        [replaceCharAt token i c, timestamp, nonce, payload] := rfl
    rw [hset] at hne
    unfold verify_signature generate_signature
    simp only [beq_eq_false_iff_ne]
    exact Ne.symm hne
  · intro token timestamp nonce payload i c hi hc
    have hne := digest_ne_of_flip digest hinj [token, timestamp, nonce, payload] 1 i c
      timestamp (by simp) rfl hi hc
    have hset : [token, timestamp, nonce, payload].set 1 (replaceCharAt timestamp i c) =
        [token, replaceCharAt timestamp i c, nonce, payload] := rfl
    rw [hset] at hne
    unfold verify_signature generate_signature
    simp only [beq_eq_false_iff_ne]
    exact Ne.symm hne
  · intro token timestamp nonce payload i c hi hc
    have hne := digest_ne_of_flip digest hinj [token, timestamp, nonce, payload] 2 i c
      nonce (by simp) rfl hi hc
    have hset : [token, timestamp, nonce, payload].set 2 (replaceCharAt nonce i c) =
        [token, timestamp, replaceCharAt nonce i c, payload] := rfl
    rw [hset] at hne
    unfold verify_signature generate_signature
    simp only [beq_eq_false_iff_ne]
    exact Ne.symm hne
  · intro token timestamp nonce payload i c hi hc
    have hne := digest_ne_of_flip digest hinj [token, timestamp, nonce, payload] 3 i c
      payload (by simp) rfl hi hc
    have hset : [token, timestamp, nonce, payload].set 3 (replaceCharAt payload i c) =
        [token, timestamp, nonce, replaceCharAt payload i c] := rfl
    rw [hset] at hne
    unfold verify_signature generate_signature
    simp only [beq_eq_false_iff_ne]
    exact Ne.symm hne
  · decide
  · decide

/-- Witness for C3 at the identity digest (injective) and at the concrete
scenario fields. -/
theorem c3_sign_verify_roundtrip_and_flip_witness :
    verify_signature (fun s => s) "abc"
      (generate_signature (fun s => s) "abc" "1" "2" "hello") "1" "2" "hello" = true ∧
    verify_signature (fun s => s) "abc"
      (generate_signature (fun s => s) "abc" "1" "2" "hello") "1" "2"
      (replaceCharAt "hello" 4 'p') = false := by
  have h := c3_sign_verify_roundtrip_and_flip (fun s => s) (fun a b hh => hh)
  exact ⟨h.1 "abc" "1" "2" "hello",
    h.2.2.2.2.1 "abc" "1" "2" "hello" 4 'p' (by decide) (by decide)⟩

/-- C10: the serialisation of session ids to workspace directory names is not
injective: the distinct user ids `"a:b"` and `"a/b"` (and `"a_b"`) map to the
same workspace path under every base directory, so two different users share
one workspace, defeating per-user isolation. -/
theorem c10_workspace_name_collision :
    ("a:b" ≠ "a/b" ∧ "a:b" ≠ "a_b" ∧ "a/b" ≠ "a_b") ∧
    ∀ base : String,
      get_workspace_path base ("user:" ++ "a:b") =
        get_workspace_path base ("user:" ++ "a/b") ∧
      get_workspace_path base ("user:" ++ "a:b") =
        get_workspace_path base ("user:" ++ "a_b") := by
  refine ⟨by decide, ?_⟩
  intro base
  unfold get_workspace_path
  have h1 : safe_session_name ("user:" ++ "a:b") = "user_a_b" := by decide
  have h2 : safe_session_name ("user:" ++ "a/b") = "user_a_b" := by decide
  have h3 : safe_session_name ("user:" ++ "a_b") = "user_a_b" := by decide
  rw [h1, h2, h3]
  exact ⟨rfl, rfl⟩

/-- C5: on a timeout the execution engine kills the child process and then
waits for it before returning (trace `spawned, killed, waited` in order), and
reports the distinct timeout outcome — an `AIResult` whose error field is the
timeout message — rather than a generic failure: every completed-process
outcome has `error = none` and the missing-executable outcome carries a
different message.  Both the iFlow and Qwen engines are covered. -/
theorem c5_timeout_terminates_and_reports_distinct_outcome :
    (iflow_execute .timedOut).1 = [.spawned, .killed, .waited] ∧
    (iflow_execute .timedOut).2 = ⟨false, "", some iflow_timeout_error⟩ ∧
    (∀ out err code, (iflow_execute (.completed out err code)).2.error = none) ∧
    (iflow_execute .notFound).2.error = some iflow_notfound_error ∧
    iflow_timeout_error ≠ iflow_notfound_error ∧
    (qwen_execute .timedOut).1 = [.spawned, .killed, .waited] ∧
    (qwen_execute .timedOut).2 = ⟨false, "", some qwen_timeout_error⟩ ∧
    (∀ out err code, (qwen_execute (.completed out err code)).2.error = none) ∧
    qwen_timeout_error ≠ qwen_notfound_error := by
  refine ⟨rfl, rfl, ?_, rfl, by decide, rfl, rfl, ?_, by decide⟩
  · intro out err code
    unfold iflow_execute
    by_cases h : code = 0 <;> simp [h]
  · intro out err code
    unfold qwen_execute
    by_cases h : code = 0 <;> simp [h]

/-- C4 (the code violates this): the claim says a session workspace and its
contents survive process restarts and are wiped only by the explicit `/new`
reset; but `AISessionManager.execute_command` calls `create_session` whenever
the in-memory `_user_sessions` map has no entry — exactly the state right
after a restart — and `IFlowBackend.create_session` wipes an existing
directory (`shutil.rmtree` then `mkdir`), contradicting the backend's own
comment that the workspace directory is kept for the next use.  First
conjunct: at the failing input (restart state: both in-memory maps empty,
disk still holding `base/user_alice` with one artifact) the first ordinary
command empties the directory.  Second conjunct: the claimed behaviour does
hold while the session is in memory — an ordinary command leaves the
filesystem untouched. -/
theorem c4_restart_first_command_wipes_workspace :
    ((manager_execute_command ⟨[]⟩ ⟨"base", []⟩
        [("base/user_alice", ["notes.txt"])] "alice").2.2 =
      [("base/user_alice", [])]) ∧
    (∀ (mst : ManagerState) (bst : BackendState) (fs : FileSys) (user sid ws : String),
      dictGet mst.user_sessions (user ++ ":iflow") = some sid →
      dictGet bst.session_workspaces sid = some ws →
      (manager_execute_command mst bst fs user).2.2 = fs) := by
  constructor
  · decide
  · intro mst bst fs user sid ws h1 h2
    simp only [manager_execute_command, h1]
    simp only [iflow_backend_execute, iflow_get_or_create_workspace, h2]

/-- Witness for the in-memory conjunct of C4: with the session cached in both
maps, the command leaves the artifact intact. -/
theorem c4_restart_first_command_wipes_workspace_witness :
    (manager_execute_command ⟨[("alice:iflow", "user:alice")]⟩
      ⟨"base", [("user:alice", "base/user_alice")]⟩
      [("base/user_alice", ["notes.txt"])] "alice").2.2 =
      [("base/user_alice", ["notes.txt"])] :=
  c4_restart_first_command_wipes_workspace.2
    ⟨[("alice:iflow", "user:alice")]⟩ ⟨"base", [("user:alice", "base/user_alice")]⟩
    [("base/user_alice", ["notes.txt"])] "alice" "user:alice" "base/user_alice"
    (by decide) (by decide)

/-- C2 (amended): `decrypt` is total in the model (no out-of-bounds reads:
every slice is a total take/drop) and every failure is one of the concrete
exception classes the code can raise — `binascii.Error` from base64,
`ValueError` from a non-block-multiple AES input, `IndexError` from an empty
decrypted buffer, `struct.error` from a short unpack buffer, or
`UnicodeDecodeError` — with the triggers proved here: base64 failures
propagate unchanged; a ciphertext length not a multiple of 16 raises
`ValueError`; an empty plaintext raises `IndexError`; a trailing pad byte of
0 or one at least the buffer length empties the buffer and surfaces as the
same short-read `struct.error` as a framing violation (there is no distinct
padding error); and a declared content length overrunning the buffer also
surfaces as that `struct.error`. -/
theorem c2_decrypt_failure_taxonomy (D : List Nat → List Nat) (key : List Nat) :
    (∀ s e, base64Decode s = .error e → decrypt D key s = .error e)
    ∧ (∀ s ct, base64Decode s = .ok ct → ct.length % 16 ≠ 0 →
        decrypt D key s = .error .valueError)
    ∧ (∀ ct, ct.length % 16 = 0 → aes_cbc_decrypt D key ct = [] →
        decryptBytes D key ct = .error .indexError)
    ∧ (∀ pt last, pt.getLast? = some last → (last = 0 ∨ pt.length ≤ last) →
        parseDecrypted pt = .error .structError)
    ∧ (∀ pt last msgLen, pt.getLast? = some last →
        readU32 (((sliceNegEnd pt last).drop 16).take 4) = .ok msgLen →
        (sliceNegEnd pt last).length < 24 + msgLen →
        parseDecrypted pt = .error .structError) := by
  refine ⟨?_, ?_, ?_, ?_, ?_⟩
  · intro s e h
    unfold decrypt
    rw [h]
  · intro s ct h1 h2
    unfold decrypt decryptBytes
    rw [h1]
    show (if ct.length % 16 ≠ 0 then Except.error PyErr.valueError
      else parseDecrypted (aes_cbc_decrypt D key ct)) = Except.error PyErr.valueError
    rw [if_pos h2]
  · intro ct h1 h2
    unfold decryptBytes
    rw [if_neg (by omega), h2]
    rfl
  · intro pt last hlast hcond
    have hstr : sliceNegEnd pt last = [] := by
      unfold sliceNegEnd
      by_cases h0 : last = 0
      · rw [if_pos h0]
      · rw [if_neg h0]
        have : pt.length - last = 0 := by omega
        rw [this, List.take_zero]
    unfold parseDecrypted
    rw [hlast]
    simp only [hstr]
    rfl
  · intro pt last msgLen hlast hu32 hshort
    have h2 : readU32 (((sliceNegEnd pt last).drop (20 + msgLen)).take 4) =
        .error .structError := by
      unfold readU32
      rw [if_neg]
      simp only [List.length_take, List.length_drop]
      omega
    unfold parseDecrypted
    rw [hlast]
    simp only [hu32, h2]

/-- Witness for C2 (amended) at concrete inputs of each failure class, with
the identity block permutation and an all-zero key. -/
theorem c2_decrypt_failure_taxonomy_witness :
    decrypt (fun b => b) (List.replicate 32 0) "ab" = .error .binasciiError ∧
    decrypt (fun b => b) (List.replicate 32 0) "abcd" = .error .valueError ∧
    decryptBytes (fun b => b) (List.replicate 32 0) [] = .error .indexError ∧
    parseDecrypted [0] = .error .structError ∧
    parseDecrypted (List.replicate 16 0 ++ [0, 0, 0, 200] ++ List.replicate 11 0 ++ [1]) =
      .error .structError := by
  have h := c2_decrypt_failure_taxonomy (fun b => b) (List.replicate 32 0)
  refine ⟨h.1 "ab" .binasciiError (by decide), ?_, ?_, ?_, ?_⟩
  · exact h.2.1 "abcd" [105, 183, 29] (by decide) (by decide)
  · exact h.2.2.1 [] (by decide) (by decide)
  · exact h.2.2.2.1 [0] 0 (by decide) (Or.inl rfl)
  · exact h.2.2.2.2 (List.replicate 16 0 ++ [0, 0, 0, 200] ++ List.replicate 11 0 ++ [1])
      1 200 (by decide) (by decide) (by decide)

/-- C2 counterexample: the claim "every truncated or corrupted ciphertext
fails, with a PaddingError when the trailing pad byte is 0" is false on the
code.  First conjunct: a corrupted ciphertext whose declared owner-id length
(100) overruns the 7 remaining bytes — a layout `encrypt` can never produce —
does not fail at all: decrypt returns a silently truncated owner id.  Second
conjunct: a plaintext whose trailing pad byte is 0 fails with the generic
short-read struct error (the same class as a framing overrun), not a distinct
padding error. -/
theorem c2_decrypt_corrupt_input_counterexample :
    decrypt (fun b => b) (List.replicate 32 0)
      (base64Encode (aes_cbc_encrypt (fun b => b) (List.replicate 32 0)
        (List.replicate 16 0 ++ [0, 0, 0, 0] ++ [0, 0, 0, 100] ++
          [65, 65, 66, 66, 67, 67, 68] ++ [1]))) = .ok ("AABBCCD", "") ∧
    decrypt (fun b => b) (List.replicate 32 0)
      (base64Encode (aes_cbc_encrypt (fun b => b) (List.replicate 32 0)
        (List.replicate 31 7 ++ [0]))) = .error .structError := by
  constructor <;> decide

theorem send_text_message_ok {env : SendEnv} (h : env.tokenFails = false)
    (user content : String) :
    send_text_message env user content = .ok ([.sent user content], !env.postFails) := by
  unfold send_text_message
  rw [if_neg (by simp [h])]

theorem send_many_ok {env : SendEnv} (h : env.tokenFails = false) (user : String) :
    ∀ msgs : List String, ∃ effs, send_many env user msgs = .ok effs := by
  intro msgs
  induction msgs with
  | nil => exact ⟨[], rfl⟩
  | cons m rest ih =>
    obtain ⟨effs, heffs⟩ := ih
    refine ⟨[.sent user m] ++ effs, ?_⟩
    unfold send_many
    rw [send_text_message_ok h, heffs]

/-- C6 (amended): the POST message-callback handler returns the fixed literal
body `"success"` regardless of the internal processing outcome — signature
mismatch, decrypt or XML-parse failure (`parse_message` returning `None`),
non-text message, any execution result, and HTTP-post failures when sending
the reply (which are caught) — provided the request body is valid UTF-8, the
`parse_message` call returns rather than raises (its `.ok message` outcome;
the uncaught `int(CreateTime)` raise is the exception to this), and
access-token acquisition during reply sending does not raise.  (The
unconditional claim is refuted by the counterexample: both a
token-acquisition failure and a non-numeric `CreateTime` escape the
handler.) -/
theorem c6_handler_acks_success_amended
    (message : Option WeChatMessage) (execResult : AIResult) (statusText : String)
    (env : SendEnv) (htoken : env.tokenFails = false) :
    ∃ effs, wechat_callback_post true (.ok message) execResult statusText env =
      .ok (effs, "success") := by
  cases message with
  | none => exact ⟨[], rfl⟩
  | some m =>
    have hexp : wechat_callback_post true (.ok (some m)) execResult statusText env =
        if m.msg_type ≠ "text" then .ok ([], "success")
        else handle_text_message m execResult statusText env := rfl
    rw [hexp]
    by_cases htype : m.msg_type ≠ "text"
    · rw [if_pos htype]
      exact ⟨[], rfl⟩
    · rw [if_neg htype]
      unfold handle_text_message
      by_cases h1 : (parse_command (pyStrip m.content)).2 = "help"
      · rw [if_pos h1, send_text_message_ok htoken]
        exact ⟨_, rfl⟩
      · rw [if_neg h1]
        by_cases h2 : (parse_command (pyStrip m.content)).2 = "new"
        · rw [if_pos h2, send_text_message_ok htoken]
          exact ⟨_, rfl⟩
        · rw [if_neg h2]
          by_cases h3 : (parse_command (pyStrip m.content)).2 = "status"
          · rw [if_pos h3, send_text_message_ok htoken]
            exact ⟨_, rfl⟩
          · rw [if_neg h3]
            by_cases h4 : (parse_command (pyStrip m.content)).2 = "run"
            · rw [if_pos h4]
              simp only [send_text_message_ok htoken]
              by_cases hs : execResult.success = true
              · rw [if_pos hs]
                by_cases hlen : execResult.output.data.length ≤ 4000
                · rw [if_pos hlen]
                  exact ⟨_, rfl⟩
                · rw [if_neg hlen]
                  obtain ⟨effs2, heffs2⟩ := send_many_ok htoken m.from_user
                    (enumerate_chunks (chunk4000 execResult.output))
                  rw [heffs2]
                  exact ⟨_, rfl⟩
              · rw [if_neg hs]
                exact ⟨_, rfl⟩
            · rw [if_neg h4, send_text_message_ok htoken]
              exact ⟨_, rfl⟩

/-- Witness for C6 (amended) at a concrete text message and a healthy
client. -/
theorem c6_handler_acks_success_amended_witness :
    ∃ effs, wechat_callback_post true (.ok (some ⟨"alice", "/help", "text", "1", 0⟩))
      ⟨true, "", none⟩ "" ⟨false, false⟩ = .ok (effs, "success") :=
  c6_handler_acks_success_amended (some ⟨"alice", "/help", "text", "1", 0⟩)
    ⟨true, "", none⟩ "" ⟨false, false⟩ rfl

/-- C6 counterexample: two uncaught exceptions escape the handler, refuting
"for every request, regardless of internal processing outcome, the handler
returns success".  (1) `get_access_token` is called outside the try block of
`send_text_message` and re-raises, so a token failure while sending the
reply escapes.  (2) `int(xml_dict.get("CreateTime", 0))` in `parse_message`
is outside every `try`: a validly signed, decryptable text message (here a
concrete AES-CBC envelope carrying `<xml/>`, with the identity block
permutation and an all-zero key) whose `CreateTime` field is the
non-numeric string `"abc"` raises `ValueError`, which escapes the POST
handler even though the body decoded and the token environment is
healthy. -/
theorem c6_uncaught_exception_escapes_counterexample :
    wechat_callback_post true (.ok (some ⟨"alice", "/help", "text", "1", 0⟩))
      ⟨true, "", none⟩ "" ⟨true, false⟩ = .error .tokenError
    ∧ parse_message (fun _ => "") (fun b => b) (List.replicate 32 0) "tok"
        (fun _ => some [("MsgType", some "text"), ("FromUserName", some "alice"),
          ("Content", some "hi"), ("AgentID", some "1"),
          ("CreateTime", some "abc")])
        "" "ts" "nonce"
        (base64Encode (aes_cbc_encrypt (fun b => b) (List.replicate 32 0)
          (List.replicate 16 0 ++ [0, 0, 0, 6] ++ [60, 120, 109, 108, 47, 62] ++
            [0, 0, 0, 0] ++ [2, 2]))) = .error .valueError
    ∧ wechat_callback_post true
        (parse_message (fun _ => "") (fun b => b) (List.replicate 32 0) "tok"
          (fun _ => some [("MsgType", some "text"), ("FromUserName", some "alice"),
            ("Content", some "hi"), ("AgentID", some "1"),
            ("CreateTime", some "abc")])
          "" "ts" "nonce"
          (base64Encode (aes_cbc_encrypt (fun b => b) (List.replicate 32 0)
            (List.replicate 16 0 ++ [0, 0, 0, 6] ++ [60, 120, 109, 108, 47, 62] ++
              [0, 0, 0, 0] ++ [2, 2]))))
        ⟨true, "", none⟩ "" ⟨false, false⟩ = .error .valueError := by
  refine ⟨by decide, by decide, by decide⟩

/-- C8: the trimmed content is classified exactly per the command table —
`"/help"` → help, `"/new"` → new, `"/status"` → status, `"/run <text>"` →
run `<text>` (trimmed), any other non-empty text not starting with `"/"` →
run it verbatim, anything else → unknown — and content whose trimmed form is
exactly `"/help"` never reaches the execution engine: the handler's effect
trace for it contains no `executed` effect. -/
theorem c8_command_classification (content : String) :
    (pyStrip content = "/help" → parse_command content = ("", "help"))
    ∧ (pyStrip content = "/new" → parse_command content = ("", "new"))
    ∧ (pyStrip content = "/status" → parse_command content = ("", "status"))
    ∧ (pyStartsWith (pyStrip content) "/run " = true →
        parse_command content = (pyStrip (pyDrop (pyStrip content) 5), "run"))
    ∧ (pyStrip content ≠ "" → pyStartsWith (pyStrip content) "/" = false →
        parse_command content = (pyStrip content, "run"))
    ∧ (pyStrip content ≠ "/help" → pyStrip content ≠ "/new" →
        pyStrip content ≠ "/status" → pyStartsWith (pyStrip content) "/run " = false →
        (pyStrip content = "" ∨ pyStartsWith (pyStrip content) "/" = true) →
        parse_command content = ("", "unknown"))
    ∧ (∀ (m : WeChatMessage) (execResult : AIResult) (statusText : String)
        (env : SendEnv) (effs : List Effect) (s : String),
        pyStrip m.content = "/help" →
        wechat_callback_post true (.ok (some m)) execResult statusText env = .ok (effs, s) →
        ∀ u cmd, Effect.executed u cmd ∉ effs) := by
  refine ⟨?_, ?_, ?_, ?_, ?_, ?_, ?_⟩
  · intro h
    unfold parse_command
    rw [h]
    rfl
  · intro h
    unfold parse_command
    rw [h]
    rfl
  · intro h
    unfold parse_command
    rw [h]
    rfl
  · intro h
    have h1 : pyStrip content ≠ "/help" := by
      intro he
      rw [he] at h
      exact absurd h (by decide)
    have h2 : pyStrip content ≠ "/new" := by
      intro he
      rw [he] at h
      exact absurd h (by decide)
    have h3 : pyStrip content ≠ "/status" := by
      intro he
      rw [he] at h
      exact absurd h (by decide)
    unfold parse_command
    rw [if_neg h1, if_neg h2, if_neg h3, if_pos h]
  · intro hne hslash
    have hprefix : ∀ p : String, pyStartsWith (pyStrip content) p = true →
        p.data.isPrefixOf (pyStrip content).data = true := fun p hp => hp
    have h1 : pyStrip content ≠ "/help" := by
      intro he
      rw [he] at hslash
      exact absurd hslash (by decide)
    have h2 : pyStrip content ≠ "/new" := by
      intro he
      rw [he] at hslash
      exact absurd hslash (by decide)
    have h3 : pyStrip content ≠ "/status" := by
      intro he
      rw [he] at hslash
      exact absurd hslash (by decide)
    have h4 : pyStartsWith (pyStrip content) "/run " = false := by
      rcases hrun : pyStartsWith (pyStrip content) "/run " with _ | _
      · rfl
      · exfalso
        have hpre : List.IsPrefix ("/run ".data) (pyStrip content).data :=
          List.isPrefixOf_iff_prefix.mp hrun
        have hpre2 : List.IsPrefix ("/".data) (pyStrip content).data :=
          List.IsPrefix.trans (by decide) hpre
        have : pyStartsWith (pyStrip content) "/" = true :=
          List.isPrefixOf_iff_prefix.mpr hpre2
        rw [this] at hslash
        exact absurd hslash (by decide)
    unfold parse_command
    rw [if_neg h1, if_neg h2, if_neg h3, if_neg (by rw [h4]; decide),
      if_pos ⟨hne, by rw [hslash]; decide⟩]
  · intro h1 h2 h3 h4 h5
    unfold parse_command
    rw [if_neg h1, if_neg h2, if_neg h3, if_neg (by rw [h4]; decide), if_neg]
    intro hcon
    rcases h5 with h5 | h5
    · exact hcon.1 h5
    · rw [h5] at hcon
      exact hcon.2 (by decide)
  · intro m execResult statusText env effs s hcontent hrun u cmd
    have hpc : parse_command (pyStrip m.content) = ("", "help") := by
      rw [hcontent]
      decide
    have hexp : wechat_callback_post true (.ok (some m)) execResult statusText env =
        if m.msg_type ≠ "text" then .ok ([], "success")
        else handle_text_message m execResult statusText env := rfl
    rw [hexp] at hrun
    by_cases htype : m.msg_type ≠ "text"
    · rw [if_pos htype] at hrun
      simp only [Except.ok.injEq, Prod.mk.injEq] at hrun
      rw [← hrun.1]
      simp
    · rw [if_neg htype] at hrun
      unfold handle_text_message at hrun
      rw [if_pos (by rw [hpc])] at hrun
      rcases henv : env.tokenFails with _ | _
      · rw [send_text_message_ok henv] at hrun
        simp only [Except.ok.injEq, Prod.mk.injEq] at hrun
        rw [← hrun.1]
        simp
      · have : send_text_message env m.from_user get_help_text = .error .tokenError := by
          unfold send_text_message
          rw [if_pos (by rw [henv])]
        rw [this] at hrun
        exact absurd hrun (by simp)

set_option maxRecDepth 8192 in
/-- Witness for C8 at concrete inputs, one per table row and the help
no-execution property. -/
theorem c8_command_classification_witness :
    parse_command " /help " = ("", "help") ∧
    parse_command "/new" = ("", "new") ∧
    parse_command "/status" = ("", "status") ∧
    parse_command "/run  ls -la " = ("ls -la", "run") ∧
    parse_command "帮我写一个脚本" = ("帮我写一个脚本", "run") ∧
    parse_command "/frobnicate" = ("", "unknown") ∧
    (Effect.executed "alice" "x" ∉ [Effect.sent "alice" get_help_text]) := by
  have h1 := (c8_command_classification " /help ").1 (by decide)
  have h2 := (c8_command_classification "/new").2.1 (by decide)
  have h3 := (c8_command_classification "/status").2.2.1 (by decide)
  have h4 := (c8_command_classification "/run  ls -la ").2.2.2.1 (by decide)
  have h5 := (c8_command_classification "帮我写一个脚本").2.2.2.2.1 (by decide) (by decide)
  have h6 := (c8_command_classification "/frobnicate").2.2.2.2.2.1 (by decide) (by decide)
    (by decide) (by decide) (Or.inr (by decide))
  have h7 := (c8_command_classification "/help").2.2.2.2.2.2
    ⟨"alice", "/help", "text", "1", 0⟩ ⟨true, "", none⟩ "" ⟨false, false⟩
    [Effect.sent "alice" get_help_text] "success" (by decide) (by decide) "alice" "x"
  exact ⟨by rw [h1], by rw [h2], by rw [h3], by rw [h4]; decide, by rw [h5]; decide,
    by rw [h6], h7⟩

theorem char_toNat_inj {a b : Char} (h : a.toNat = b.toNat) : a = b := by
  refine Char.ext ?_
  have hb : a.val.toBitVec = b.val.toBitVec := BitVec.eq_of_toNat_eq h
  rcases ha : a.val with ⟨bv1⟩
  rcases hbv : b.val with ⟨bv2⟩
  rw [ha, hbv] at hb
  simp at hb
  rw [hb]

/-- Unique parsing: if the encoding of `rest` extends the encoding of `a`,
then `a` is a prefix of `rest` and the remainder bytes encode the remaining
characters. -/
theorem utf8EncodeChars_cancel :
    ∀ (a rest : List Char) (t : List Nat),
      utf8EncodeChars rest = utf8EncodeChars a ++ t →
      ∃ post, rest = a ++ post ∧ t = utf8EncodeChars post := by
  intro a
  induction a with
  | nil =>
    intro rest t h
    exact ⟨rest, rfl, by simpa [utf8EncodeChars] using h.symm⟩
  | cons c a' ih =>
    intro rest t h
    match rest with
    | [] =>
      exfalso
      rw [show utf8EncodeChars [] = [] from rfl] at h
      have : utf8EncodeChars (c :: a') ++ t ≠ [] := by
        simp only [utf8EncodeChars, List.append_assoc]
        intro hcon
        exact utf8EncodeScalar_ne_nil c.toNat (List.append_eq_nil.mp hcon).1
      exact this h.symm
    | d :: rest' =>
      have hd : utf8DecodeScalar (utf8EncodeChars (d :: rest')) =
          some (d.toNat, utf8EncodeChars rest') :=
        utf8DecodeScalar_encode d.toNat (char_toNat_validScalar d) _
      have hc : utf8DecodeScalar (utf8EncodeChars (c :: a') ++ t) =
          some (c.toNat, utf8EncodeChars a' ++ t) := by
        have := utf8DecodeScalar_encode c.toNat (char_toNat_validScalar c)
          (utf8EncodeChars a' ++ t)
        rw [show utf8EncodeChars (c :: a') ++ t =
          utf8EncodeScalar c.toNat ++ (utf8EncodeChars a' ++ t) by
          simp [utf8EncodeChars, List.append_assoc]]
        exact this
      rw [h] at hd
      rw [hd] at hc
      obtain ⟨hnat, hrest⟩ := Prod.mk.inj (Option.some.inj hc)
      have hdc : d = c := char_toNat_inj hnat
      subst hdc
      obtain ⟨post, hpost, ht⟩ := ih rest' t hrest
      exact ⟨post, by rw [hpost, List.cons_append], ht⟩

/-- Decoding a take of an encoded character stream lands exactly on a
character boundary. -/
theorem utf8Decode_take_encode {rest : List Char} {n : Nat} {s : String}
    (h : utf8DecodeString ((utf8EncodeChars rest).take n) = some s) :
    ∃ post, rest = s.data ++ post ∧
      (utf8EncodeChars rest).take n = utf8EncodeChars s.data ∧
      (utf8EncodeChars rest).drop n = utf8EncodeChars post := by
  have hsound : (utf8EncodeChars rest).take n = utf8EncodeChars s.data :=
    utf8DecodeString_sound h
  have hsplit : utf8EncodeChars rest =
      utf8EncodeChars s.data ++ (utf8EncodeChars rest).drop n := by
    conv_lhs => rw [← List.take_append_drop n (utf8EncodeChars rest)]
    rw [hsound]
  obtain ⟨post, hpost, ht⟩ := utf8EncodeChars_cancel s.data rest _ hsplit
  exact ⟨post, hpost, hsound, ht⟩

theorem backoffDecode_some_spec :
    ∀ (chunk : List Nat) (k : Nat) {i : Nat} {s : String},
      backoffDecode chunk k = some (i, s) →
      1 ≤ i ∧ i ≤ k ∧ utf8DecodeString (chunk.take i) = some s := by
  intro chunk k
  induction k with
  | zero => intro i s h; simp [backoffDecode] at h
  | succ k ih =>
    intro i s h
    unfold backoffDecode at h
    match hdec : utf8DecodeString (chunk.take (k + 1)) with
    | some s' =>
      rw [hdec] at h
      obtain ⟨hi, hs⟩ := Prod.mk.inj (Option.some.inj h)
      subst hi
      subst hs
      exact ⟨by omega, Nat.le_refl _, hdec⟩
    | none =>
      rw [hdec] at h
      obtain ⟨h1, h2, h3⟩ := ih h
      exact ⟨h1, by omega, h3⟩

theorem backoffDecode_exists :
    ∀ (chunk : List Nat) (k j : Nat), 1 ≤ j → j ≤ k →
      (utf8DecodeString (chunk.take j)).isSome →
      ∃ i s, backoffDecode chunk k = some (i, s) := by
  intro chunk k
  induction k with
  | zero => intro j h1 h2 _; omega
  | succ k ih =>
    intro j h1 h2 hdec
    unfold backoffDecode
    match hdk : utf8DecodeString (chunk.take (k + 1)) with
    | some s => exact ⟨k + 1, s, rfl⟩
    | none =>
      have hjk : j ≤ k := by
        rcases Nat.lt_or_ge j (k + 1) with h | h
        · omega
        · exfalso
          have : j = k + 1 := by omega
          rw [this] at hdec
          rw [hdk] at hdec
          simp at hdec
      exact ih j h1 hjk hdec

theorem fitChars_is_prefix :
    ∀ (cs : List Char) (budget : Nat), ∃ post, cs = fitChars cs budget ++ post := by
  intro cs
  induction cs with
  | nil => intro budget; exact ⟨[], rfl⟩
  | cons c cs ih =>
    intro budget
    unfold fitChars
    by_cases h : (utf8EncodeScalar c.toNat).length ≤ budget
    · rw [if_pos h]
      obtain ⟨post, hpost⟩ := ih (budget - (utf8EncodeScalar c.toNat).length)
      exact ⟨post, by rw [List.cons_append, ← hpost]⟩
    · rw [if_neg h]
      exact ⟨c :: cs, rfl⟩

theorem fitChars_length_le :
    ∀ (cs : List Char) (budget : Nat),
      (utf8EncodeChars (fitChars cs budget)).length ≤ budget := by
  intro cs
  induction cs with
  | nil => intro budget; simp [fitChars, utf8EncodeChars]
  | cons c cs ih =>
    intro budget
    unfold fitChars
    by_cases h : (utf8EncodeScalar c.toNat).length ≤ budget
    · rw [if_pos h]
      have := ih (budget - (utf8EncodeScalar c.toNat).length)
      simp only [utf8EncodeChars, List.length_append]
      omega
    · rw [if_neg h]
      simp [utf8EncodeChars]

theorem fitChars_ne_nil {c : Char} {cs : List Char} {budget : Nat}
    (h : (utf8EncodeScalar c.toNat).length ≤ budget) :
    fitChars (c :: cs) budget ≠ [] := by
  unfold fitChars
  rw [if_pos h]
  simp

theorem utf8EncodeChars_eq_nil {cs : List Char} (h : utf8EncodeChars cs = []) :
    cs = [] := by
  match cs with
  | [] => rfl
  | c :: cs' =>
    exfalso
    rw [show utf8EncodeChars (c :: cs') =
      utf8EncodeScalar c.toNat ++ utf8EncodeChars cs' from rfl] at h
    exact utf8EncodeScalar_ne_nil c.toNat (List.append_eq_nil.mp h).1

theorem utf8DecodeString_encodeChars (cs : List Char) :
    utf8DecodeString (utf8EncodeChars cs) = some (String.mk cs) :=
  utf8DecodeString_encode (String.mk cs)

theorem splitLoop_succ_done {encoded : List Nat} {N fuel start : Nat}
    {acc : List String} (hend : encoded.length ≤ start) :
    splitLoop encoded N (fuel + 1) start acc = some acc.reverse := by
  conv_lhs => rw [splitLoop]
  rw [if_pos hend]

theorem splitLoop_succ_some {encoded : List Nat} {N fuel start : Nat}
    {acc : List String} {chunk : String}
    (hend : ¬ encoded.length ≤ start)
    (hdec : utf8DecodeString ((encoded.drop start).take N) = some chunk) :
    splitLoop encoded N (fuel + 1) start acc =
      splitLoop encoded N fuel (start + N) (chunk :: acc) := by
  conv_lhs => rw [splitLoop]
  rw [if_neg hend]
  simp only [hdec]

theorem splitLoop_succ_backoff {encoded : List Nat} {N fuel start : Nat}
    {acc : List String} {i : Nat} {chunk : String}
    (hend : ¬ encoded.length ≤ start)
    (hdec : utf8DecodeString ((encoded.drop start).take N) = none)
    (hbo : backoffDecode ((encoded.drop start).take N)
      (((encoded.drop start).take N).length - 1) = some (i, chunk)) :
    splitLoop encoded N (fuel + 1) start acc =
      splitLoop encoded N fuel (start + i) (chunk :: acc) := by
  conv_lhs => rw [splitLoop]
  rw [if_neg hend]
  simp only [hdec, hbo]

/-- Fuel-indexed invariant proof for the chunking loop: as long as the byte
budget is at least 4, every iteration emits a chunk that fits the budget and
advances by at least one byte, and the emitted chunks concatenate to the
remaining text. -/
theorem splitLoop_spec :
    ∀ (fuel : Nat) (encoded : List Nat) (N start : Nat) (acc : List String)
      (rest : List Char),
      4 ≤ N →
      encoded.drop start = utf8EncodeChars rest →
      encoded.length - start < fuel →
      ∃ parts, splitLoop encoded N fuel start acc = some (acc.reverse ++ parts) ∧
        (parts.map String.data).flatten = rest ∧
        ∀ p ∈ parts, (utf8EncodeString p).length ≤ N := by
  intro fuel
  induction fuel with
  | zero => intro encoded N start acc rest _ _ hf; omega
  | succ fuel ih =>
    intro encoded N start acc rest hN hinv hf
    by_cases hend : encoded.length ≤ start
    · have hdrop : encoded.drop start = [] := List.drop_eq_nil_iff.mpr hend
      rw [hdrop] at hinv
      have hrest : rest = [] := utf8EncodeChars_eq_nil hinv.symm
      subst hrest
      exact ⟨[], by rw [splitLoop_succ_done hend]; simp, by simp, by simp⟩
    · rcases hdec : utf8DecodeString ((encoded.drop start).take N) with _ | chunk
      · -- full-budget decode fails: the backward probe finds the greedy
        -- character-boundary prefix
        have hrest_ne : rest ≠ [] := by
          intro hr
          rw [hr] at hinv
          exact hend (List.drop_eq_nil_iff.mp (by
            rw [hinv]; rfl))
        obtain ⟨c, cs, hr⟩ := List.exists_cons_of_ne_nil hrest_ne
        have hNlt : N < (encoded.drop start).length := by
          by_contra hcon
          push_neg at hcon
          rw [List.take_of_length_le hcon, hinv, utf8DecodeString_encodeChars] at hdec
          exact Option.noConfusion hdec
        have hchunklen : ((encoded.drop start).take N).length = N := by
          rw [List.length_take]
          omega
        have hfit_ne : fitChars rest N ≠ [] := by
          rw [hr]
          exact fitChars_ne_nil (le_trans (utf8EncodeScalar_length_le c.toNat) hN)
        obtain ⟨post, hpost⟩ := fitChars_is_prefix rest N
        obtain ⟨fit, hfit⟩ : ∃ fit, fitChars rest N = fit := ⟨_, rfl⟩
        rw [hfit] at hfit_ne hpost
        have hj1 : 1 ≤ (utf8EncodeChars fit).length := by
          by_contra hcon
          push_neg at hcon
          have : utf8EncodeChars fit = [] :=
            List.length_eq_zero.mp (by omega)
          exact hfit_ne (utf8EncodeChars_eq_nil this)
        have hjN : (utf8EncodeChars fit).length ≤ N := by
          rw [← hfit]
          exact fitChars_length_le rest N
        have htakej : ∀ m, (utf8EncodeChars fit).length ≤ m →
            ((encoded.drop start).take m).take
              (utf8EncodeChars fit).length =
            utf8EncodeChars fit := by
          intro m hm
          rw [List.take_take, Nat.min_eq_left hm, hinv]
          conv_lhs => rw [hpost]
          rw [utf8EncodeChars_append, List.take_left]
        have hjne : (utf8EncodeChars fit).length ≠ N := by
          intro hjeq
          have hfull : ((encoded.drop start).take N).take
              (utf8EncodeChars fit).length =
              (encoded.drop start).take N :=
            List.take_of_length_le (by rw [hchunklen, hjeq])
          have heq : (encoded.drop start).take N = utf8EncodeChars fit := by
            rw [← hfull]
            exact htakej N hjN
          rw [heq, utf8DecodeString_encodeChars] at hdec
          exact Option.noConfusion hdec
        have hjprobe :
            (utf8DecodeString (((encoded.drop start).take N).take
              (utf8EncodeChars fit).length)).isSome := by
          rw [htakej N hjN, utf8DecodeString_encodeChars]
          rfl
        obtain ⟨i, s, hbo⟩ := backoffDecode_exists ((encoded.drop start).take N)
          (((encoded.drop start).take N).length - 1)
          (utf8EncodeChars fit).length hj1 (by omega) hjprobe
        obtain ⟨hi1, hiK, hidec⟩ := backoffDecode_some_spec _ _ hbo
        have hiN : i ≤ N := by omega
        have hidec' : utf8DecodeString ((utf8EncodeChars rest).take i) = some s := by
          rw [← hinv, ← Nat.min_eq_left hiN, ← List.take_take]
          exact hidec
        obtain ⟨post2, hpost2, htake2, hdrop2⟩ := utf8Decode_take_encode hidec'
        have hslen : (utf8EncodeString s).length ≤ N := by
          show (utf8EncodeChars s.data).length ≤ N
          rw [← htake2, List.length_take]
          omega
        have hinv' : encoded.drop (start + i) = utf8EncodeChars post2 := by
          rw [← List.drop_drop, hinv]
          exact hdrop2
        have hf' : encoded.length - (start + i) < fuel := by
          push_neg at hend
          omega
        obtain ⟨parts, hrun, hflat, hbound⟩ :=
          ih encoded N (start + i) (s :: acc) post2 hN hinv' hf'
        refine ⟨s :: parts, ?_, ?_, ?_⟩
        · rw [splitLoop_succ_backoff hend hdec hbo, hrun]
          simp
        · rw [List.map_cons, List.flatten_cons, hflat, hpost2]
        · intro p hp
          rcases List.mem_cons.mp hp with hp | hp
          · rw [hp]; exact hslen
          · exact hbound p hp
      · -- full-budget decode succeeds
        have hdec' : utf8DecodeString ((utf8EncodeChars rest).take N) = some chunk := by
          rw [← hinv]
          exact hdec
        obtain ⟨post, hpost, htake, hdrop⟩ := utf8Decode_take_encode hdec'
        have hclen : (utf8EncodeString chunk).length ≤ N := by
          show (utf8EncodeChars chunk.data).length ≤ N
          rw [← htake, List.length_take]
          omega
        have hinv' : encoded.drop (start + N) = utf8EncodeChars post := by
          rw [← List.drop_drop, hinv]
          exact hdrop
        have hf' : encoded.length - (start + N) < fuel := by
          push_neg at hend
          omega
        obtain ⟨parts, hrun, hflat, hbound⟩ :=
          ih encoded N (start + N) (chunk :: acc) post hN hinv' hf'
        refine ⟨chunk :: parts, ?_, ?_, ?_⟩
        · rw [splitLoop_succ_some hend hdec, hrun]
          simp
        · rw [List.map_cons, List.flatten_cons, hflat, hpost]
        · intro p hp
          rcases List.mem_cons.mp hp with hp | hp
          · rw [hp]; exact hclen
          · exact hbound p hp

/-- C7 (corrected): whenever the byte budget is at least 4 — which covers the
source's default of 1500 — `split_message_by_bytes` terminates and returns
chunks that are valid UTF-8, each at most `max_bytes` bytes when UTF-8
encoded, concatenate to the original content in order, and a content that
already fits is returned as a single chunk.  The claim as written (any
budget) is false: with a budget smaller than a character's encoding the
backward probe finds no decodable prefix, `start` never advances, and the
Python `while` loop runs forever (the model returns `none`). -/
theorem c7_split_fits_and_rejoins (content : String) (N : Nat) (hN : 4 ≤ N) :
    ∃ chunks, split_message_by_bytes content N = some chunks ∧
      String.join chunks = content ∧
      (∀ ch ∈ chunks, (utf8EncodeString ch).length ≤ N) ∧
      ((utf8EncodeString content).length ≤ N → chunks = [content]) := by
  unfold split_message_by_bytes
  by_cases hle : (utf8EncodeString content).length ≤ N
  · rw [if_pos hle]
    refine ⟨[content], rfl, ?_, ?_, fun _ => rfl⟩
    · apply String.ext
      rw [stringJoin_data]
      simp
    · intro ch hch
      rw [List.mem_singleton.mp hch]
      exact hle
  · rw [if_neg hle]
    obtain ⟨parts, hrun, hflat, hbound⟩ :=
      splitLoop_spec ((utf8EncodeString content).length + 1)
        (utf8EncodeString content) N 0 [] content.data hN rfl (by omega)
    refine ⟨parts, ?_, ?_, hbound, fun h => absurd h hle⟩
    · rw [hrun]
      simp
    · apply String.ext
      rw [stringJoin_data, hflat]

theorem c7_split_fits_and_rejoins_witness :
    4 ≤ 4 ∧ ∃ chunks, split_message_by_bytes "hello7" 4 = some chunks ∧
      String.join chunks = "hello7" ∧
      (∀ ch ∈ chunks, (utf8EncodeString ch).length ≤ 4) ∧
      ((utf8EncodeString "hello7").length ≤ 4 → chunks = ["hello7"]) :=
  ⟨by decide, c7_split_fits_and_rejoins "hello7" 4 (by decide)⟩

/-- C7 counterexample to the unrestricted claim: a 1-byte budget on the
3-byte character 中 leaves the backward probe nothing that decodes, the loop
makes no progress, and the Python code never returns (modelled as `none`). -/
theorem c7_tiny_budget_diverges_counterexample :
    split_message_by_bytes (String.mk [Char.ofNat 20013]) 1 = none := by
  decide

end WeChatAI
